import Mathlib

/-!
# Verification of the permit normalization and geocoding-cache component

Shallow embedding of `src/processors/prepare_permits.py` (class `PermitProcessor`
and the driver `normalize_and_geocode_permits`).

Modelling conventions:
* Python strings are `String`/`List Char`; only the ASCII fragment of Python's
  case conversions (`str.upper`, `str.lower`, `str.title`) and of the regex
  classes `\w`/`\s` is modelled (permit addresses are ASCII).  Lean's
  `Char.toUpper`/`Char.toLower` realize exactly this ASCII fragment.
* `re.sub(r'\bP\b', R, s)` for a pattern `P` consisting solely of word
  characters replaces exactly the maximal word-character runs of `s` that equal
  `P` (the `\b` anchors force any match to cover a full maximal run); the
  replacements used by the code are themselves nonempty word-character strings,
  so they occupy the run's position without merging with neighbours.  The
  embedding makes this explicit by splitting a string into alternating
  word-run/separator tokens.
* Machine floats are modelled as `ℚ`; `inf`/`nan` inputs to `float()` are out
  of scope, and the decimal literals appearing in the claims are exactly
  representable either way.
* Wall-clock values (`datetime.now()`) are threaded as explicit parameters;
  file I/O (the persisted cache) is threaded as explicit state with event
  counters for cache flushes, cache stores and external API calls.
-/

/-! ## ASCII character classes (Python `\s`, `\w`, cased characters) -/

/-- Python's `\s` class, ASCII fragment: space, tab, newline, carriage return,
vertical tab, form feed. -/
def isSpaceChar (c : Char) : Bool :=
  c = ' ' || c = '\t' || c = '\n' || c = '\r' || c = '\x0b' || c = '\x0c'

/-- Python's `\w` class, ASCII fragment: alphanumeric or underscore. -/
def isWordChar (c : Char) : Bool :=
  c.isAlphanum || c = '_'

/-- "Cased" character in Python's sense, ASCII fragment: a letter. -/
def isCased (c : Char) : Bool := c.isAlpha

theorem char_toNat_ofNat {n : ℕ} (h : n.isValidChar) : (Char.ofNat n).toNat = n := by
  simp only [Char.ofNat, dif_pos h, Char.ofNatAux, Char.toNat, UInt32.toNat, BitVec.toNat_ofNatLt]

theorem isLower_iff (c : Char) : c.isLower = true ↔ 97 ≤ c.toNat ∧ c.toNat ≤ 122 := by
  unfold Char.isLower
  simp only [Bool.and_eq_true, decide_eq_true_eq]
  exact ⟨fun ⟨h1, h2⟩ => ⟨h1, h2⟩, fun ⟨h1, h2⟩ => ⟨h1, h2⟩⟩

theorem isUpper_iff (c : Char) : c.isUpper = true ↔ 65 ≤ c.toNat ∧ c.toNat ≤ 90 := by
  unfold Char.isUpper
  simp only [Bool.and_eq_true, decide_eq_true_eq]
  exact ⟨fun ⟨h1, h2⟩ => ⟨h1, h2⟩, fun ⟨h1, h2⟩ => ⟨h1, h2⟩⟩

theorem isDigit_iff (c : Char) : c.isDigit = true ↔ 48 ≤ c.toNat ∧ c.toNat ≤ 57 := by
  unfold Char.isDigit
  simp only [Bool.and_eq_true, decide_eq_true_eq]
  exact ⟨fun ⟨h1, h2⟩ => ⟨h1, h2⟩, fun ⟨h1, h2⟩ => ⟨h1, h2⟩⟩

theorem isAlpha_iff (c : Char) :
    c.isAlpha = true ↔ (65 ≤ c.toNat ∧ c.toNat ≤ 90) ∨ (97 ≤ c.toNat ∧ c.toNat ≤ 122) := by
  unfold Char.isAlpha
  rw [Bool.or_eq_true, isUpper_iff, isLower_iff]

theorem toUpper_eq_of_isLower {c : Char} (h : c.isLower = true) :
    c.toUpper = Char.ofNat (c.toNat - 32) := by
  have hb := (isLower_iff c).1 h
  unfold Char.toUpper
  rw [if_pos ⟨hb.1, hb.2⟩]

theorem toUpper_eq_of_not_isLower {c : Char} (h : c.isLower = false) : c.toUpper = c := by
  unfold Char.toUpper
  rw [if_neg]
  intro ⟨h1, h2⟩
  rw [Bool.eq_false_iff] at h
  exact h ((isLower_iff c).2 ⟨h1, h2⟩)

theorem toLower_eq_of_isUpper {c : Char} (h : c.isUpper = true) :
    c.toLower = Char.ofNat (c.toNat + 32) := by
  have hb := (isUpper_iff c).1 h
  unfold Char.toLower
  rw [if_pos ⟨hb.1, hb.2⟩]

theorem toLower_eq_of_not_isUpper {c : Char} (h : c.isUpper = false) : c.toLower = c := by
  unfold Char.toLower
  rw [if_neg]
  intro ⟨h1, h2⟩
  rw [Bool.eq_false_iff] at h
  exact h ((isUpper_iff c).2 ⟨h1, h2⟩)

theorem toNat_toUpper_of_isLower {c : Char} (h : c.isLower = true) :
    c.toUpper.toNat = c.toNat - 32 := by
  have hb := (isLower_iff c).1 h
  rw [toUpper_eq_of_isLower h, char_toNat_ofNat]
  left
  omega

theorem toNat_toLower_of_isUpper {c : Char} (h : c.isUpper = true) :
    c.toLower.toNat = c.toNat + 32 := by
  have hb := (isUpper_iff c).1 h
  rw [toLower_eq_of_isUpper h, char_toNat_ofNat]
  left
  omega

theorem toUpper_toUpper (c : Char) : c.toUpper.toUpper = c.toUpper := by
  by_cases h : c.isLower = true
  · have hb := (isLower_iff c).1 h
    have ht := toNat_toUpper_of_isLower h
    apply toUpper_eq_of_not_isLower
    rw [Bool.eq_false_iff]
    intro hc
    have := (isLower_iff _).1 hc
    omega
  · rw [Bool.not_eq_true] at h
    rw [toUpper_eq_of_not_isLower h, toUpper_eq_of_not_isLower h]

theorem toLower_toLower (c : Char) : c.toLower.toLower = c.toLower := by
  by_cases h : c.isUpper = true
  · have hb := (isUpper_iff c).1 h
    have ht := toNat_toLower_of_isUpper h
    apply toLower_eq_of_not_isUpper
    rw [Bool.eq_false_iff]
    intro hc
    have := (isUpper_iff _).1 hc
    omega
  · rw [Bool.not_eq_true] at h
    rw [toLower_eq_of_not_isUpper h, toLower_eq_of_not_isUpper h]

theorem isAlpha_toUpper (c : Char) : c.toUpper.isAlpha = c.isAlpha := by
  by_cases h : c.isLower = true
  · have hb := (isLower_iff c).1 h
    have ht := toNat_toUpper_of_isLower h
    rw [Bool.eq_iff_iff, isAlpha_iff, isAlpha_iff]
    omega
  · rw [Bool.not_eq_true] at h
    rw [toUpper_eq_of_not_isLower h]

theorem isAlpha_toLower (c : Char) : c.toLower.isAlpha = c.isAlpha := by
  by_cases h : c.isUpper = true
  · have hb := (isUpper_iff c).1 h
    have ht := toNat_toLower_of_isUpper h
    rw [Bool.eq_iff_iff, isAlpha_iff, isAlpha_iff]
    omega
  · rw [Bool.not_eq_true] at h
    rw [toLower_eq_of_not_isUpper h]

theorem isWordChar_iff (c : Char) :
    isWordChar c = true ↔
      (65 ≤ c.toNat ∧ c.toNat ≤ 90) ∨ (97 ≤ c.toNat ∧ c.toNat ≤ 122) ∨
      (48 ≤ c.toNat ∧ c.toNat ≤ 57) ∨ c.toNat = 95 := by
  unfold isWordChar Char.isAlphanum
  simp only [Bool.or_eq_true, isAlpha_iff, isDigit_iff, decide_eq_true_eq]
  constructor
  · rintro (((h | h) | h) | h)
    · exact Or.inl h
    · exact Or.inr (Or.inl h)
    · exact Or.inr (Or.inr (Or.inl h))
    · subst h
      exact Or.inr (Or.inr (Or.inr rfl))
  · rintro (h | h | h | h)
    · exact Or.inl (Or.inl (Or.inl h))
    · exact Or.inl (Or.inl (Or.inr h))
    · exact Or.inl (Or.inr h)
    · refine Or.inr ?_
      have hc : c = Char.ofNat c.toNat := (Char.ofNat_toNat c).symm
      rw [hc, h]

theorem isWordChar_toUpper (c : Char) : isWordChar c.toUpper = isWordChar c := by
  by_cases h : c.isLower = true
  · have hb := (isLower_iff c).1 h
    have ht := toNat_toUpper_of_isLower h
    rw [Bool.eq_iff_iff, isWordChar_iff, isWordChar_iff]
    omega
  · rw [Bool.not_eq_true] at h
    rw [toUpper_eq_of_not_isLower h]

theorem isWordChar_toLower (c : Char) : isWordChar c.toLower = isWordChar c := by
  by_cases h : c.isUpper = true
  · have hb := (isUpper_iff c).1 h
    have ht := toNat_toLower_of_isUpper h
    rw [Bool.eq_iff_iff, isWordChar_iff, isWordChar_iff]
    omega
  · rw [Bool.not_eq_true] at h
    rw [toLower_eq_of_not_isUpper h]

theorem toUpper_of_not_isAlpha {c : Char} (h : c.isAlpha = false) : c.toUpper = c := by
  apply toUpper_eq_of_not_isLower
  unfold Char.isAlpha at h
  exact (Bool.or_eq_false_iff.1 h).2

theorem isSpaceChar_iff (c : Char) :
    isSpaceChar c = true ↔
      c.toNat = 32 ∨ c.toNat = 9 ∨ c.toNat = 10 ∨ c.toNat = 13 ∨ c.toNat = 11 ∨ c.toNat = 12 := by
  unfold isSpaceChar
  simp only [Bool.or_eq_true, decide_eq_true_eq]
  constructor
  · rintro (((((h | h) | h) | h) | h) | h) <;> subst h <;> simp [Char.toNat]
  · have hc : c = Char.ofNat c.toNat := (Char.ofNat_toNat c).symm
    rintro (h | h | h | h | h | h) <;> rw [hc, h] <;> simp

theorem not_isSpaceChar_of_isWordChar {c : Char} (h : isWordChar c = true) :
    isSpaceChar c = false := by
  have hw := (isWordChar_iff c).1 h
  rw [Bool.eq_false_iff]
  intro hs
  have := (isSpaceChar_iff c).1 hs
  omega

theorem isWordChar_of_isCased {c : Char} (h : isCased c = true) : isWordChar c = true := by
  unfold isCased at h
  unfold isWordChar Char.isAlphanum
  simp [h]

theorem not_isCased_of_not_isWordChar {c : Char} (h : isWordChar c = false) :
    isCased c = false := by
  rw [Bool.eq_false_iff] at h ⊢
  intro hc
  exact h (isWordChar_of_isCased hc)

/-! ## Whitespace handling

`re.sub(r'\s+', ' ', s.strip())`: strip leading/trailing whitespace, then
replace every maximal whitespace run by a single space. -/

/-- Python `str.strip()`: drop leading and trailing whitespace. -/
def stripWs (cs : List Char) : List Char :=
  ((cs.dropWhile isSpaceChar).reverse.dropWhile isSpaceChar).reverse

/-- `re.sub(r'\s+', ' ', cs)`: each maximal whitespace run becomes one `' '`. -/
def collapseWs : List Char → List Char
  | [] => []
  | [c] => [if isSpaceChar c then ' ' else c]
  | c1 :: c2 :: rest =>
    if isSpaceChar c1 && isSpaceChar c2 then collapseWs (c2 :: rest)
    else (if isSpaceChar c1 then ' ' else c1) :: collapseWs (c2 :: rest)

/-! ## Word/separator tokenization

A string is split into maximal runs of word characters (`Sum.inl`) and single
non-word characters (`Sum.inr`).  `re.sub(r'\bP\b', R, s)` for an all-word-char
pattern `P` rewrites exactly the word runs equal to `P`. -/

/-- A token: a maximal word-character run, or a single non-word character. -/
abbrev Tok := Sum (List Char) Char

/-- Tokenize; `cur` accumulates the current word run in reverse. -/
def toToks (cur : List Char) : List Char → List Tok
  | [] => if cur.isEmpty then [] else [Sum.inl cur.reverse]
  | c :: rest =>
    if isWordChar c then toToks (c :: cur) rest
    else if cur.isEmpty then Sum.inr c :: toToks [] rest
    else Sum.inl cur.reverse :: Sum.inr c :: toToks [] rest

/-- Concatenate tokens back into a string. -/
def ofToks : List Tok → List Char
  | [] => []
  | Sum.inl w :: ts => w ++ ofToks ts
  | Sum.inr c :: ts => c :: ofToks ts

/-- Apply a function to every word run, keeping separators. -/
def mapToks (f : List Char → List Char) (ts : List Tok) : List Tok :=
  ts.map fun t =>
    match t with
    | Sum.inl w => Sum.inl (f w)
    | Sum.inr c => Sum.inr c

/-- Word-wise transformation of a string. -/
def mapWords (f : List Char → List Char) (cs : List Char) : List Char :=
  ofToks (mapToks f (toToks [] cs))

/-! ## String-level operations used by the address cleaners -/

/-- Python `str.upper()`, ASCII fragment. -/
def pyUpper (cs : List Char) : List Char := cs.map Char.toUpper

/-- Python `str.title()`, ASCII fragment: a cased character is uppercased when
the previous character is uncased, lowercased otherwise. -/
def pyTitleAux : Bool → List Char → List Char
  | _, [] => []
  | prevCased, c :: rest =>
    (if isCased c then (if prevCased then c.toLower else c.toUpper) else c)
      :: pyTitleAux (isCased c) rest

/-- Python `str.title()`. -/
def pyTitle (cs : List Char) : List Char := pyTitleAux false cs

/-- Case-insensitive (resp. sensitive) whole-word match of a run `w` against a
pattern `pat`; for `ci = true` the pattern is given in uppercase, mirroring
`re.IGNORECASE` matching of an all-letter pattern. -/
def wordMatches (ci : Bool) (pat w : List Char) : Bool :=
  if ci then decide (pyUpper w = pat) else decide (w = pat)

/-- `re.sub(r'\bpat\b', repl, cs)` (optionally `re.IGNORECASE`) for an
all-word-character `pat`: replace each maximal word run matching `pat`. -/
def reSubWord (ci : Bool) (pat repl : List Char) (cs : List Char) : List Char :=
  mapWords (fun w => if wordMatches ci pat w then repl else w) cs

/-- Sequence of whole-word substitutions, applied left to right
(the `for full, abbrev in ...items(): address = re.sub(...)` loops). -/
def applySubs (ci : Bool) (subs : List (List Char × List Char)) (cs : List Char) : List Char :=
  subs.foldl (fun s pr => reSubWord ci pr.1 pr.2 s) cs

/-! ## The two address cleaners (source: `PermitProcessor.clean_address`,
`PermitProcessor.clean_address_for_cache`) -/

/-- `directional_map` of `clean_address`, in insertion order. -/
def directionalMap : List (List Char × List Char) :=
  [("NORTH".data, "N".data), ("SOUTH".data, "S".data),
   ("EAST".data, "E".data), ("WEST".data, "W".data),
   ("NORTHEAST".data, "NE".data), ("NORTHWEST".data, "NW".data),
   ("SOUTHEAST".data, "SE".data), ("SOUTHWEST".data, "SW".data)]

/-- `street_types` of `clean_address`, in insertion order. -/
def streetTypes : List (List Char × List Char) :=
  [("STREET".data, "ST".data), ("AVENUE".data, "AVE".data),
   ("BOULEVARD".data, "BLVD".data), ("DRIVE".data, "DR".data),
   ("ROAD".data, "RD".data), ("LANE".data, "LN".data),
   ("COURT".data, "CT".data), ("PLACE".data, "PL".data)]

/-- The case-sensitive abbreviation fixups of `clean_address_for_cache`, in
source order (`Fl`→`FL`, then eight identity substitutions). -/
def fixAbbrevs : List (List Char × List Char) :=
  [("Fl".data, "FL".data), ("Rd".data, "Rd".data), ("St".data, "St".data),
   ("Ave".data, "Ave".data), ("Dr".data, "Dr".data), ("Ln".data, "Ln".data),
   ("Ct".data, "Ct".data), ("Pl".data, "Pl".data), ("Blvd".data, "Blvd".data)]

/-- `PermitProcessor.clean_address` (display mode): empty-check, whitespace
collapse, directional expansion, street-type expansion (both whole-word,
case-insensitive), then uppercase. -/
def clean_address (address : String) : String :=
  if address = "" then ""
  else
    let a0 := collapseWs (stripWs address.data)
    let a1 := applySubs true directionalMap a0
    let a2 := applySubs true streetTypes a1
    ⟨pyUpper a2⟩

/-- `PermitProcessor.clean_address_for_cache` (cache-key mode): empty-check,
whitespace collapse, title case, then the case-sensitive abbreviation
fixups. -/
def clean_address_for_cache (address : String) : String :=
  if address = "" then ""
  else
    let a0 := collapseWs (stripWs address.data)
    let a1 := pyTitle a0
    let a2 := applySubs false fixAbbrevs a1
    ⟨a2⟩

example : clean_address "123 north   main street" = "123 N MAIN ST" := by decide

example : clean_address_for_cache "123 NORTH main   fl" = "123 North Main FL" := by decide

/-! ## Token fundamentals -/

theorem length_dropWhile_le' (p : Char → Bool) (l : List Char) :
    (l.dropWhile p).length ≤ l.length := by
  induction l with
  | nil => simp
  | cons c rest ih =>
    rw [List.dropWhile_cons]
    split
    · exact Nat.le_trans ih (Nat.le_succ _)
    · exact Nat.le_refl _

theorem toToks_word_run (rest : List Char) :
    ∀ cur : List Char, cur ≠ [] →
      toToks cur rest =
        Sum.inl (cur.reverse ++ rest.takeWhile isWordChar)
          :: toToks [] (rest.dropWhile isWordChar) := by
  induction rest with
  | nil =>
    intro cur hcur
    simp [toToks, List.isEmpty_iff, hcur]
  | cons c r ih =>
    intro cur hcur
    by_cases hw : isWordChar c
    · rw [show toToks cur (c :: r) = toToks (c :: cur) r by simp [toToks, hw],
        ih (c :: cur) (by simp), List.takeWhile_cons_of_pos hw,
        List.dropWhile_cons_of_pos hw]
      simp
    · rw [show toToks cur (c :: r) = Sum.inl cur.reverse :: Sum.inr c :: toToks [] r by
          simp [toToks, hw, List.isEmpty_iff, hcur],
        List.takeWhile_cons_of_neg hw, List.dropWhile_cons_of_neg hw]
      simp [toToks, hw]

theorem toToks_nil_cons_word {c : Char} (hw : isWordChar c = true) (rest : List Char) :
    toToks [] (c :: rest) =
      Sum.inl (c :: rest.takeWhile isWordChar) :: toToks [] (rest.dropWhile isWordChar) := by
  rw [show toToks [] (c :: rest) = toToks [c] rest by simp [toToks, hw],
    toToks_word_run rest [c] (by simp)]
  rfl

theorem toToks_nil_cons_sep {c : Char} (hw : isWordChar c = false) (rest : List Char) :
    toToks [] (c :: rest) = Sum.inr c :: toToks [] rest := by
  simp [toToks, hw]

theorem ofToks_toToks (cs : List Char) :
    ∀ cur : List Char, ofToks (toToks cur cs) = cur.reverse ++ cs := by
  induction cs with
  | nil =>
    intro cur
    by_cases h : cur.isEmpty
    · rw [List.isEmpty_iff] at h
      simp [toToks, h, ofToks]
    · simp only [toToks, h, if_false]
      simp [ofToks]
  | cons c rest ih =>
    intro cur
    by_cases hw : isWordChar c
    · rw [show toToks cur (c :: rest) = toToks (c :: cur) rest by simp [toToks, hw], ih]
      simp
    · by_cases h : cur.isEmpty
      · rw [List.isEmpty_iff] at h
        subst h
        simp only [toToks, hw, if_false, List.isEmpty_nil, if_true, ofToks]
        rw [ih []]
        simp
      · rw [show toToks cur (c :: rest) = Sum.inl cur.reverse :: Sum.inr c :: toToks [] rest by
            simp [toToks, hw, h]]
        simp only [ofToks]
        rw [ih []]
        simp

/-- Well-formedness of a single token: word runs are nonempty all-word-char
lists, separators are non-word characters. -/
def tokOK : Tok → Prop
  | Sum.inl w => w ≠ [] ∧ ∀ c ∈ w, isWordChar c = true
  | Sum.inr c => isWordChar c = false

/-- Is the token a word run? -/
def isWordTok : Tok → Prop
  | Sum.inl _ => True
  | Sum.inr _ => False

/-- Well-formed token lists: tokens are well formed and no two word runs are
adjacent (word runs are maximal). -/
def ToksWF (ts : List Tok) : Prop :=
  (∀ t ∈ ts, tokOK t) ∧ List.Chain' (fun a b => ¬(isWordTok a ∧ isWordTok b)) ts

theorem toToks_WF (cs : List Char) : ToksWF (toToks [] cs) := by
  generalize hn : cs.length = n
  induction n using Nat.strong_induction_on generalizing cs with
  | _ n ih =>
    subst hn
    match cs with
    | [] => exact ⟨by simp [toToks], by simp [toToks]⟩
    | c :: rest =>
      by_cases hw : isWordChar c
      · rw [toToks_nil_cons_word hw rest]
        have hlen : (rest.dropWhile isWordChar).length < (c :: rest).length :=
          Nat.lt_succ_of_le (length_dropWhile_le' _ rest)
        have hWF := ih _ hlen (rest.dropWhile isWordChar) rfl
        refine ⟨?_, ?_⟩
        · intro t ht
          rcases List.mem_cons.1 ht with h | h
          · subst h
            refine ⟨by simp, ?_⟩
            intro x hx
            rcases List.mem_cons.1 hx with h | h
            · subst h; exact hw
            · exact List.mem_takeWhile_imp h
          · exact hWF.1 t h
        · rw [List.chain'_cons']
          refine ⟨?_, hWF.2⟩
          intro y hy
          have hhd := List.head?_dropWhile_not isWordChar rest
          match hd : (rest.dropWhile isWordChar) with
          | [] =>
            rw [hd] at hy
            simp [toToks] at hy
          | c' :: r' =>
            rw [hd] at hhd hy
            simp only [List.head?_cons] at hhd
            rw [toToks_nil_cons_sep hhd r'] at hy
            simp only [List.head?_cons, Option.mem_def, Option.some.injEq] at hy
            subst hy
            rintro ⟨-, hfalse⟩
            exact hfalse.elim
      · rw [Bool.not_eq_true] at hw
        rw [toToks_nil_cons_sep hw rest]
        have hWF := ih rest.length (by simp) rest rfl
        refine ⟨?_, ?_⟩
        · intro t ht
          rcases List.mem_cons.1 ht with h | h
          · subst h; exact hw
          · exact hWF.1 t h
        · rw [List.chain'_cons']
          refine ⟨?_, hWF.2⟩
          intro y hy
          rintro ⟨hfalse, -⟩
          exact hfalse.elim

theorem takeWhile_word_append {w x : List Char} (hw : ∀ c ∈ w, isWordChar c = true)
    (hx : x = [] ∨ ∃ c r, x = c :: r ∧ isWordChar c = false) :
    (w ++ x).takeWhile isWordChar = w ∧ (w ++ x).dropWhile isWordChar = x := by
  induction w with
  | nil =>
    simp only [List.nil_append]
    rcases hx with h | ⟨c, r, h, hc⟩
    · subst h; simp
    · subst h
      exact ⟨List.takeWhile_cons_of_neg (by simp [hc]),
        List.dropWhile_cons_of_neg (by simp [hc])⟩
  | cons a w' ih =>
    have ha : isWordChar a = true := hw a (by simp)
    have ih' := ih (fun c hc => hw c (by simp [hc]))
    simp only [List.cons_append, List.takeWhile_cons_of_pos ha,
      List.dropWhile_cons_of_pos ha]
    exact ⟨by rw [ih'.1], ih'.2⟩

theorem toToks_ofToks {ts : List Tok} (h : ToksWF ts) : toToks [] (ofToks ts) = ts := by
  induction ts with
  | nil => simp [ofToks, toToks]
  | cons t ts' ih =>
    have hok := h.1 t (by simp)
    have htail : ToksWF ts' :=
      ⟨fun u hu => h.1 u (by simp [hu]), (List.chain'_cons'.1 h.2).2⟩
    match t with
    | Sum.inl w =>
      obtain ⟨hne, hall⟩ := hok
      have hx : ofToks ts' = [] ∨ ∃ c r, ofToks ts' = c :: r ∧ isWordChar c = false := by
        match ts' with
        | [] => exact Or.inl rfl
        | Sum.inl w' :: ts'' =>
          exfalso
          have := (List.chain'_cons'.1 h.2).1 (Sum.inl w') (by simp)
          exact this ⟨trivial, trivial⟩
        | Sum.inr c :: ts'' =>
          have hc : isWordChar c = false := h.1 (Sum.inr c) (by simp)
          exact Or.inr ⟨c, ofToks ts'', by simp [ofToks], hc⟩
      match w, hne with
      | a :: w', _ =>
        have ha : isWordChar a = true := hall a (by simp)
        have hall' : ∀ c ∈ w', isWordChar c = true := fun c hc => hall c (by simp [hc])
        obtain ⟨htake, hdrop⟩ := takeWhile_word_append hall' hx
        show toToks [] ((a :: w') ++ ofToks ts') = _
        rw [List.cons_append, toToks_nil_cons_word ha, htake, hdrop, ih htail]
    | Sum.inr c =>
      show toToks [] (c :: ofToks ts') = _
      rw [toToks_nil_cons_sep hok, ih htail]

/-! ## Word-wise map composition -/

theorem mapToks_mapToks (f g : List Char → List Char) (ts : List Tok) :
    mapToks f (mapToks g ts) = mapToks (fun w => f (g w)) ts := by
  unfold mapToks
  rw [List.map_map]
  apply List.map_congr_left
  intro t _
  cases t <;> rfl

theorem mapToks_congr {f g : List Char → List Char} (h : ∀ w, f w = g w) (ts : List Tok) :
    mapToks f ts = mapToks g ts := by
  unfold mapToks
  apply List.map_congr_left
  intro t _
  cases t <;> simp [h]

/-- A word transformation sending nonempty all-word-character runs to nonempty
all-word-character runs. -/
def WordPres (f : List Char → List Char) : Prop :=
  ∀ w, w ≠ [] → (∀ c ∈ w, isWordChar c = true) →
    f w ≠ [] ∧ ∀ c ∈ f w, isWordChar c = true

theorem isWordTok_mapTok (f : List Char → List Char) (t : Tok) :
    isWordTok (match t with | Sum.inl w => Sum.inl (f w) | Sum.inr c => Sum.inr c) ↔
      isWordTok t := by
  cases t <;> simp [isWordTok]

theorem mapToks_WF {f : List Char → List Char} (hf : WordPres f) {ts : List Tok}
    (h : ToksWF ts) : ToksWF (mapToks f ts) := by
  constructor
  · intro t ht
    obtain ⟨t0, ht0, rfl⟩ := List.mem_map.1 ht
    have hok := h.1 t0 ht0
    cases t0 with
    | inl w =>
      obtain ⟨hne, hall⟩ := hok
      exact hf w hne hall
    | inr c => exact hok
  · unfold mapToks
    rw [List.chain'_map]
    apply h.2.imp
    intro a b hab
    rw [isWordTok_mapTok, isWordTok_mapTok]
    exact hab

theorem mapWords_mapWords {g : List Char → List Char} (hg : WordPres g)
    (f : List Char → List Char) (cs : List Char) :
    mapWords f (mapWords g cs) = mapWords (fun w => f (g w)) cs := by
  unfold mapWords
  rw [toToks_ofToks (mapToks_WF hg (toToks_WF cs)), mapToks_mapToks]

/-! ## Whitespace canonicity -/

/-- Canonical internal whitespace: all whitespace characters are `' '` and no
two whitespace characters are adjacent. -/
def wsOK (cs : List Char) : Prop :=
  (∀ c ∈ cs, isSpaceChar c = true → c = ' ') ∧
  List.Chain' (fun a b => ¬(isSpaceChar a = true ∧ isSpaceChar b = true)) cs

def headNospace (cs : List Char) : Prop := ∀ c ∈ cs.head?, isSpaceChar c = false

def lastNospace (cs : List Char) : Prop := ∀ c ∈ cs.getLast?, isSpaceChar c = false

theorem collapseWs_cons_nospace {c : Char} {rest : List Char} (h : isSpaceChar c = false) :
    collapseWs (c :: rest) = c :: collapseWs rest := by
  cases rest with
  | nil => simp [collapseWs, h]
  | cons c2 r => simp [collapseWs, h]

theorem collapseWs_eq_self {cs : List Char} (h : wsOK cs) : collapseWs cs = cs := by
  induction cs with
  | nil => rfl
  | cons c rest ih =>
    have htail : wsOK rest :=
      ⟨fun x hx => h.1 x (by simp [hx]), (List.chain'_cons'.1 h.2).2⟩
    by_cases hsp : isSpaceChar c = true
    · have hc : c = ' ' := h.1 c (by simp) hsp
      cases rest with
      | nil => simp [collapseWs, hsp, hc]
      | cons c2 r =>
        have hc2 : isSpaceChar c2 = false := by
          have := (List.chain'_cons'.1 h.2).1 c2 (by simp)
          rw [Bool.eq_false_iff]
          intro h2
          exact this ⟨hsp, h2⟩
        show collapseWs (c :: c2 :: r) = _
        unfold collapseWs
        rw [if_neg (by simp [hc2]), if_pos hsp, hc]
        rw [ih htail]
    · rw [Bool.not_eq_true] at hsp
      rw [collapseWs_cons_nospace hsp, ih htail]

theorem collapseWs_ne_nil {cs : List Char} (h : cs ≠ []) : collapseWs cs ≠ [] := by
  induction cs with
  | nil => exact absurd rfl h
  | cons c rest ih =>
    cases rest with
    | nil => simp [collapseWs]
    | cons c2 r =>
      unfold collapseWs
      split
      · exact ih (by simp)
      · simp


theorem wsOK_collapseWs (cs : List Char) : wsOK (collapseWs cs) := by
  generalize hn : cs.length = n
  induction n using Nat.strong_induction_on generalizing cs with
  | _ n ih =>
    subst hn
    match cs with
    | [] => exact ⟨by simp [collapseWs], by simp [collapseWs]⟩
    | [c] =>
      constructor
      · intro x hx hsp
        simp only [collapseWs, List.mem_singleton] at hx
        subst hx
        by_cases h : isSpaceChar c = true
        · rw [if_pos h]
        · rw [if_neg h] at hsp ⊢
          rw [Bool.not_eq_true] at h
          rw [h] at hsp
          exact absurd hsp (by simp)
      · show List.Chain' _ [_]
        simp
    | c1 :: c2 :: rest =>
      show wsOK (collapseWs (c1 :: c2 :: rest))
      unfold collapseWs
      by_cases hb : (isSpaceChar c1 && isSpaceChar c2) = true
      · rw [if_pos hb]
        exact ih (c2 :: rest).length (by simp) _ rfl
      · rw [if_neg hb]
        have hIH := ih (c2 :: rest).length (by simp) (c2 :: rest) rfl
        have hfacts : (isSpaceChar (if isSpaceChar c1 = true then ' ' else c1) = true →
              (if isSpaceChar c1 = true then ' ' else c1) = ' ') ∧
            isSpaceChar (if isSpaceChar c1 = true then ' ' else c1) = isSpaceChar c1 := by
          by_cases h1 : isSpaceChar c1 = true
          · rw [if_pos h1, h1]
            exact ⟨fun _ => rfl, by simp [isSpaceChar]⟩
          · rw [if_neg h1]
            rw [Bool.not_eq_true] at h1
            rw [h1]
            exact ⟨fun h => absurd h (by simp), rfl⟩
        constructor
        · intro x hx hsp
          rcases List.mem_cons.1 hx with h | h
          · subst h
            exact hfacts.1 hsp
          · exact hIH.1 x h hsp
        · rw [List.chain'_cons']
          refine ⟨?_, hIH.2⟩
          intro y hy
          rintro ⟨hxsp, hysp⟩
          rw [hfacts.2] at hxsp
          have h2 : isSpaceChar c2 = false := by
            rcases Bool.eq_false_or_eq_true (isSpaceChar c2) with h | h
            · exact absurd (by simp [hxsp, h] : (isSpaceChar c1 && isSpaceChar c2) = true) hb
            · exact h
          rw [collapseWs_cons_nospace h2, List.head?_cons, Option.mem_def,
            Option.some.injEq] at hy
          subst hy
          rw [h2] at hysp
          exact absurd hysp (by simp)

theorem dropWhile_eq_self_of_head {cs : List Char} {p : Char → Bool}
    (h : ∀ c ∈ cs.head?, p c = false) : cs.dropWhile p = cs := by
  cases cs with
  | nil => rfl
  | cons c rest =>
    have hc := h c (by simp)
    exact List.dropWhile_cons_of_neg (by simp [hc])

theorem stripWs_eq_self {cs : List Char} (h1 : headNospace cs) (h2 : lastNospace cs) :
    stripWs cs = cs := by
  unfold stripWs
  rw [dropWhile_eq_self_of_head h1]
  rw [dropWhile_eq_self_of_head (by
    intro c hc
    rw [List.head?_reverse] at hc
    exact h2 c hc)]
  exact List.reverse_reverse cs

theorem getLast?_dropWhile {cs : List Char} {p : Char → Bool}
    (h : cs.dropWhile p ≠ []) : (cs.dropWhile p).getLast? = cs.getLast? := by
  induction cs with
  | nil => simp at h
  | cons c rest ih =>
    by_cases hp : p c = true
    · rw [List.dropWhile_cons_of_pos hp] at h ⊢
      have hr : rest ≠ [] := by
        intro hrnil
        subst hrnil
        simp at h
      rw [ih h, List.getLast?_cons]
      match rest, hr with
      | c2 :: r2, _ => simp [List.getLast?_cons]
    · rw [Bool.not_eq_true] at hp
      rw [List.dropWhile_cons_of_neg (by simp [hp])]

theorem headNospace_stripWs (cs : List Char) : headNospace (stripWs cs) := by
  intro c hc
  unfold stripWs at hc
  rw [List.head?_reverse] at hc
  set B := (cs.dropWhile isSpaceChar).reverse.dropWhile isSpaceChar with hB
  have hBne : B ≠ [] := by
    intro hnil
    rw [hnil] at hc
    simp at hc
  rw [getLast?_dropWhile hBne, List.getLast?_reverse] at hc
  have := List.head?_dropWhile_not isSpaceChar cs
  match hd : (cs.dropWhile isSpaceChar).head? with
  | none =>
    rw [hd] at hc
    simp at hc
  | some c' =>
    rw [hd] at this hc
    simp only [Option.mem_def, Option.some.injEq] at hc
    subst hc
    exact this

theorem lastNospace_stripWs (cs : List Char) : lastNospace (stripWs cs) := by
  intro c hc
  unfold stripWs at hc
  rw [List.getLast?_reverse] at hc
  have := List.head?_dropWhile_not isSpaceChar (cs.dropWhile isSpaceChar).reverse
  match hd : ((cs.dropWhile isSpaceChar).reverse.dropWhile isSpaceChar).head? with
  | none =>
    rw [hd] at hc
    simp at hc
  | some c' =>
    rw [hd] at this hc
    simp only [Option.mem_def, Option.some.injEq] at hc
    subst hc
    exact this

theorem headNospace_collapseWs {cs : List Char} (h : headNospace cs) :
    headNospace (collapseWs cs) := by
  intro c hc
  cases cs with
  | nil => simp [collapseWs] at hc
  | cons c1 rest =>
    have h1 : isSpaceChar c1 = false := h c1 (by simp)
    rw [collapseWs_cons_nospace h1, List.head?_cons, Option.mem_def,
      Option.some.injEq] at hc
    subst hc
    exact h1

theorem lastNospace_collapseWs {cs : List Char} (h : lastNospace cs) :
    lastNospace (collapseWs cs) := by
  generalize hn : cs.length = n
  induction n using Nat.strong_induction_on generalizing cs with
  | _ n ih =>
    subst hn
    match cs with
    | [] => intro c hc; simp [collapseWs] at hc
    | [c] =>
      intro x hx
      have hcl : isSpaceChar c = false := h c (by simp)
      simp only [collapseWs, hcl, Bool.false_eq_true, if_false, List.getLast?_singleton,
        Option.mem_def, Option.some.injEq] at hx
      subst hx
      exact hcl
    | c1 :: c2 :: rest =>
      have hlast : lastNospace (c2 :: rest) := by
        intro x hx
        exact h x (by rw [List.getLast?_cons_cons]; exact hx)
      intro x hx
      show isSpaceChar x = false
      unfold collapseWs at hx
      by_cases hb : (isSpaceChar c1 && isSpaceChar c2) = true
      · rw [if_pos hb] at hx
        exact ih (c2 :: rest).length (by simp) hlast rfl x hx
      · rw [if_neg hb] at hx
        have hne : collapseWs (c2 :: rest) ≠ [] := collapseWs_ne_nil (by simp)
        match hcl : collapseWs (c2 :: rest), hne with
        | y :: ys, _ =>
          rw [hcl, List.getLast?_cons_cons] at hx
          have := ih (c2 :: rest).length (by simp) hlast rfl x
          rw [hcl] at this
          exact this hx

/-! ## Whitespace canonicity at the token level -/

/-- A whitespace separator token. -/
def spTok : Tok → Prop
  | Sum.inl _ => False
  | Sum.inr c => isSpaceChar c = true

/-- Canonical whitespace, read off the token list: whitespace separators are
single `' '`, never adjacent, and neither at the start nor at the end. -/
def ToksSpacing (ts : List Tok) : Prop :=
  (∀ t ∈ ts, spTok t → t = Sum.inr ' ') ∧
  List.Chain' (fun a b => ¬(spTok a ∧ spTok b)) ts ∧
  (∀ t ∈ ts.head?, ¬spTok t) ∧ (∀ t ∈ ts.getLast?, ¬spTok t)

theorem toToks_nil_ne_nil {cs : List Char} (h : cs ≠ []) : toToks [] cs ≠ [] := by
  match cs with
  | c :: rest =>
    by_cases hw : isWordChar c = true
    · rw [toToks_nil_cons_word hw]
      simp
    · rw [toToks_nil_cons_sep (Bool.not_eq_true _ ▸ hw)]
      simp

theorem mem_cs_of_inr_mem_toToks {cs : List Char} {c : Char}
    (h : Sum.inr c ∈ toToks [] cs) : c ∈ cs := by
  have hof : ofToks (toToks [] cs) = cs := by
    have := ofToks_toToks cs []
    simpa using this
  rw [← hof]
  clear hof
  generalize toToks [] cs = ts at h ⊢
  induction ts with
  | nil => simp at h
  | cons t ts' ih =>
    rcases List.mem_cons.1 h with h' | h'
    · subst h'
      simp [ofToks]
    · cases t with
      | inl w => simp only [ofToks, List.mem_append]; exact Or.inr (ih h')
      | inr c2 => simp only [ofToks, List.mem_cons]; exact Or.inr (ih h')

theorem toToks_spacing_mem {cs : List Char} (hws : wsOK cs) :
    ∀ t ∈ toToks [] cs, spTok t → t = Sum.inr ' ' := by
  intro t ht hsp
  cases t with
  | inl w => exact absurd hsp (by simp [spTok])
  | inr c =>
    have hc : isSpaceChar c = true := hsp
    have hmem : c ∈ cs := mem_cs_of_inr_mem_toToks ht
    rw [hws.1 c hmem hc]

theorem chain'_dropWhile {R : Char → Char → Prop} {p : Char → Bool} {l : List Char}
    (h : List.Chain' R l) : List.Chain' R (l.dropWhile p) := by
  induction l with
  | nil => simp
  | cons c rest ih =>
    rw [List.dropWhile_cons]
    split
    · exact ih (List.chain'_cons'.1 h).2
    · exact h

theorem toToks_spacing_chain {cs : List Char}
    (h : List.Chain' (fun a b => ¬(isSpaceChar a = true ∧ isSpaceChar b = true)) cs) :
    List.Chain' (fun a b => ¬(spTok a ∧ spTok b)) (toToks [] cs) := by
  generalize hn : cs.length = n
  induction n using Nat.strong_induction_on generalizing cs with
  | _ n ih =>
    subst hn
    match cs with
    | [] => simp [toToks]
    | c :: rest =>
      by_cases hw : isWordChar c = true
      · rw [toToks_nil_cons_word hw]
        rw [List.chain'_cons']
        constructor
        · intro y hy
          rintro ⟨hfalse, -⟩
          exact hfalse
        · have hlen : (rest.dropWhile isWordChar).length < (c :: rest).length :=
            Nat.lt_succ_of_le (length_dropWhile_le' _ rest)
          exact ih _ hlen (chain'_dropWhile (List.chain'_cons'.1 h).2) rfl
      · rw [Bool.not_eq_true] at hw
        rw [toToks_nil_cons_sep hw]
        rw [List.chain'_cons']
        constructor
        · intro y hy
          match rest with
          | [] => simp [toToks] at hy
          | c2 :: r2 =>
            by_cases hw2 : isWordChar c2 = true
            · rw [toToks_nil_cons_word hw2, List.head?_cons, Option.mem_def,
                Option.some.injEq] at hy
              subst hy
              rintro ⟨-, hfalse⟩
              exact hfalse
            · rw [Bool.not_eq_true] at hw2
              rw [toToks_nil_cons_sep hw2, List.head?_cons, Option.mem_def,
                Option.some.injEq] at hy
              subst hy
              rintro ⟨h1, h2⟩
              exact (List.chain'_cons'.1 h).1 c2 (by simp) ⟨h1, h2⟩
        · exact ih rest.length (by simp) (List.chain'_cons'.1 h).2 rfl

theorem toToks_spacing_head {cs : List Char} (h : headNospace cs) :
    ∀ t ∈ (toToks [] cs).head?, ¬spTok t := by
  intro t ht
  match cs with
  | [] => simp [toToks] at ht
  | c :: rest =>
    have hc : isSpaceChar c = false := h c (by simp)
    by_cases hw : isWordChar c = true
    · rw [toToks_nil_cons_word hw, List.head?_cons, Option.mem_def,
        Option.some.injEq] at ht
      subst ht
      simp [spTok]
    · rw [Bool.not_eq_true] at hw
      rw [toToks_nil_cons_sep hw, List.head?_cons, Option.mem_def,
        Option.some.injEq] at ht
      subst ht
      simp [spTok, hc]

theorem toToks_spacing_last {cs : List Char} (h : lastNospace cs) :
    ∀ t ∈ (toToks [] cs).getLast?, ¬spTok t := by
  generalize hn : cs.length = n
  induction n using Nat.strong_induction_on generalizing cs with
  | _ n ih =>
    subst hn
    intro t ht
    match cs with
    | [] => simp [toToks] at ht
    | c :: rest =>
      by_cases hw : isWordChar c = true
      · rw [toToks_nil_cons_word hw] at ht
        match hd : rest.dropWhile isWordChar with
        | [] =>
          rw [hd] at ht
          simp only [toToks, List.isEmpty_nil, if_true, List.getLast?_singleton,
            Option.mem_def, Option.some.injEq] at ht
          subst ht
          simp [spTok]
        | c' :: r' =>
          have hne := toToks_nil_ne_nil (hd ▸ (by simp) : rest.dropWhile isWordChar ≠ [])
          match htk : toToks [] (rest.dropWhile isWordChar), hne with
          | u :: us, _ =>
            rw [htk, List.getLast?_cons_cons] at ht
            have hrne : rest ≠ [] := by
              intro hr
              rw [hr] at hd
              simp at hd
            have hlast' : lastNospace (rest.dropWhile isWordChar) := by
              intro x hx
              rw [getLast?_dropWhile (by rw [hd]; simp)] at hx
              apply h
              match hr : rest, hrne with
              | c2 :: r2, _ =>
                rw [List.getLast?_cons_cons]
                exact hx
            have hlen : (rest.dropWhile isWordChar).length < (c :: rest).length :=
              Nat.lt_succ_of_le (length_dropWhile_le' _ rest)
            have := ih _ hlen hlast' rfl t
            rw [htk] at this
            exact this ht
      · rw [Bool.not_eq_true] at hw
        rw [toToks_nil_cons_sep hw] at ht
        match rest with
        | [] =>
          rw [show toToks [] ([] : List Char) = [] from rfl, List.getLast?_singleton,
            Option.mem_def, Option.some.injEq] at ht
          subst ht
          have hc : isSpaceChar c = false := h c (by simp)
          simp [spTok, hc]
        | c2 :: r2 =>
          have hne := toToks_nil_ne_nil (show c2 :: r2 ≠ [] by simp)
          match htk : toToks [] (c2 :: r2), hne with
          | u :: us, _ =>
            rw [htk, List.getLast?_cons_cons] at ht
            have hlast' : lastNospace (c2 :: r2) := by
              intro x hx
              exact h x (by rw [List.getLast?_cons_cons]; exact hx)
            have := ih (c2 :: r2).length (by simp) hlast' rfl t
            rw [htk] at this
            exact this ht

theorem toToks_spacing {cs : List Char} (hws : wsOK cs) (h1 : headNospace cs)
    (h2 : lastNospace cs) : ToksSpacing (toToks [] cs) :=
  ⟨toToks_spacing_mem hws, toToks_spacing_chain hws.2,
    toToks_spacing_head h1, toToks_spacing_last h2⟩

theorem spTok_mapTok (f : List Char → List Char) (t : Tok) :
    spTok (match t with | Sum.inl w => Sum.inl (f w) | Sum.inr c => Sum.inr c) ↔ spTok t := by
  cases t <;> simp [spTok]

theorem mapToks_spacing {f : List Char → List Char} {ts : List Tok}
    (h : ToksSpacing ts) : ToksSpacing (mapToks f ts) := by
  obtain ⟨hmem, hchain, hhead, hlast⟩ := h
  refine ⟨?_, ?_, ?_, ?_⟩
  · intro t ht hsp
    obtain ⟨t0, ht0, rfl⟩ := List.mem_map.1 ht
    have hsp0 : spTok t0 := (spTok_mapTok f t0).1 hsp
    have := hmem t0 ht0 hsp0
    subst this
    rfl
  · unfold mapToks
    rw [List.chain'_map]
    apply hchain.imp
    intro a b hab
    rw [spTok_mapTok, spTok_mapTok]
    exact hab
  · intro t ht
    unfold mapToks at ht
    rw [List.head?_map] at ht
    match hh : ts.head? with
    | none => rw [hh] at ht; simp at ht
    | some t0 =>
      rw [hh] at ht
      simp only [Option.map_some', Option.mem_def, Option.some.injEq] at ht
      subst ht
      rw [spTok_mapTok]
      exact hhead t0 (by rw [hh]; rfl)
  · intro t ht
    unfold mapToks at ht
    rw [List.getLast?_map] at ht
    match hh : ts.getLast? with
    | none => rw [hh] at ht; simp at ht
    | some t0 =>
      rw [hh] at ht
      simp only [Option.map_some', Option.mem_def, Option.some.injEq] at ht
      subst ht
      rw [spTok_mapTok]
      exact hlast t0 (by rw [hh]; rfl)

/-! ## `stripWs` and `collapseWs` fix the image of a canonical token list -/

theorem ofToks_ne_nil {ts : List Tok} (hWF : ToksWF ts) (h : ts ≠ []) : ofToks ts ≠ [] := by
  match ts with
  | Sum.inl w :: ts' =>
    obtain ⟨hne, -⟩ := hWF.1 (Sum.inl w) (by simp)
    show w ++ ofToks ts' ≠ []
    simp [hne]
  | Sum.inr c :: ts' =>
    show c :: ofToks ts' ≠ []
    simp

theorem head_ofToks_nospace {ts : List Tok} (hWF : ToksWF ts)
    (hhead : ∀ t ∈ ts.head?, ¬spTok t) : headNospace (ofToks ts) := by
  intro c hc
  match ts with
  | [] => simp [ofToks] at hc
  | Sum.inl w :: ts' =>
    obtain ⟨hne, hall⟩ := hWF.1 (Sum.inl w) (by simp)
    show isSpaceChar c = false
    have : (w ++ ofToks ts').head? = some c := hc
    match w, hne with
    | a :: w', _ =>
      rw [List.cons_append, List.head?_cons, Option.some.injEq] at this
      subst this
      exact not_isSpaceChar_of_isWordChar (hall a (by simp))
  | Sum.inr c0 :: ts' =>
    have hsp : ¬spTok (Sum.inr c0) := hhead _ (by simp)
    have : (c0 :: ofToks ts').head? = some c := hc
    rw [List.head?_cons, Option.some.injEq] at this
    subst this
    show isSpaceChar c0 = false
    rcases Bool.eq_false_or_eq_true (isSpaceChar c0) with h | h
    · exact absurd h hsp
    · exact h

theorem last_ofToks_nospace {ts : List Tok} (hWF : ToksWF ts)
    (hlast : ∀ t ∈ ts.getLast?, ¬spTok t) : lastNospace (ofToks ts) := by
  induction ts with
  | nil => intro c hc; simp [ofToks] at hc
  | cons t ts' ih =>
    have hWF' : ToksWF ts' :=
      ⟨fun u hu => hWF.1 u (by simp [hu]), (List.chain'_cons'.1 hWF.2).2⟩
    intro c hc
    match hts : ts' with
    | [] =>
      cases t with
      | inl w =>
        obtain ⟨hne, hall⟩ := hWF.1 (Sum.inl w) (by simp)
        have : (w ++ ofToks []).getLast? = some c := hc
        rw [show ofToks [] = [] from rfl, List.append_nil] at this
        have hcmem : c ∈ w := by
          have := List.getLast?_eq_some_iff.1 this
          obtain ⟨ys, hys⟩ := this
          rw [hys]
          simp
        exact not_isSpaceChar_of_isWordChar (hall c hcmem)
      | inr c0 =>
        have hsp : ¬spTok (Sum.inr c0) := hlast _ (by simp)
        have : (c0 :: ofToks []).getLast? = some c := hc
        rw [show ofToks [] = [] from rfl, List.getLast?_singleton, Option.some.injEq] at this
        subst this
        show isSpaceChar c0 = false
        rcases Bool.eq_false_or_eq_true (isSpaceChar c0) with h | h
        · exact absurd h hsp
        · exact h
    | t2 :: ts'' =>
      have hofne : ofToks (t2 :: ts'') ≠ [] := ofToks_ne_nil hWF' (by simp)
      have htail : ∀ u ∈ (t2 :: ts'').getLast?, ¬spTok u := by
        intro u hu
        apply hlast
        rw [List.getLast?_cons, Option.mem_def]
        rw [Option.mem_def] at hu
        rw [hu]
        rfl
      apply ih hWF' htail
      cases t with
      | inl w =>
        have : (w ++ ofToks (t2 :: ts'')).getLast? = some c := hc
        rw [List.getLast?_append] at this
        match hg : (ofToks (t2 :: ts'')).getLast? with
        | none => exact absurd (List.getLast?_eq_none_iff.1 hg) hofne
        | some c2 =>
          rw [hg] at this
          simp only [Option.or_some, Option.some.injEq] at this
          subst this
          rfl
      | inr c0 =>
        have : (c0 :: ofToks (t2 :: ts'')).getLast? = some c := hc
        rw [List.getLast?_cons] at this
        match hg : (ofToks (t2 :: ts'')).getLast? with
        | none => exact absurd (List.getLast?_eq_none_iff.1 hg) hofne
        | some c2 =>
          rw [hg] at this
          simp only [Option.getD_some, Option.some.injEq] at this
          subst this
          rfl

theorem mem_ofToks_decomp {ts : List Tok} {c : Char} (h : c ∈ ofToks ts) :
    (∃ w, Sum.inl w ∈ ts ∧ c ∈ w) ∨ Sum.inr c ∈ ts := by
  induction ts with
  | nil => simp [ofToks] at h
  | cons t ts' ih =>
    cases t with
    | inl w =>
      rcases List.mem_append.1 h with h' | h'
      · exact Or.inl ⟨w, by simp, h'⟩
      · rcases ih h' with ⟨w', hw', hc⟩ | h''
        · exact Or.inl ⟨w', by simp [hw'], hc⟩
        · exact Or.inr (by simp [h''])
    | inr c0 =>
      rcases List.mem_cons.1 h with h' | h'
      · subst h'
        exact Or.inr (by simp)
      · rcases ih h' with ⟨w', hw', hc⟩ | h''
        · exact Or.inl ⟨w', by simp [hw'], hc⟩
        · exact Or.inr (by simp [h''])

theorem chain'_of_all_nospace {l : List Char} (h : ∀ a ∈ l, isSpaceChar a = false) :
    List.Chain' (fun a b => ¬(isSpaceChar a = true ∧ isSpaceChar b = true)) l := by
  induction l with
  | nil => simp
  | cons c rest ih =>
    rw [List.chain'_cons']
    refine ⟨?_, ih fun a ha => h a (by simp [ha])⟩
    intro y hy
    rintro ⟨h1, -⟩
    rw [h c (by simp)] at h1
    exact absurd h1 (by simp)

theorem head_ofToks_sep {ts : List Tok} (hWF : ToksWF ts) :
    ∀ x ∈ (ofToks ts).head?, (∃ t ∈ ts.head?, t = Sum.inr x) ∨ isWordChar x = true := by
  intro x hx
  match ts with
  | [] => simp [ofToks] at hx
  | Sum.inl w :: ts' =>
    obtain ⟨hne, hall⟩ := hWF.1 (Sum.inl w) (by simp)
    match w, hne with
    | a :: w', _ =>
      have hthis : ((a :: w') ++ ofToks ts').head? = some x := hx
      rw [List.cons_append, List.head?_cons, Option.some.injEq] at hthis
      rw [← hthis]
      exact Or.inr (hall a (by simp))
  | Sum.inr c0 :: ts' =>
    have hthis : (c0 :: ofToks ts').head? = some x := hx
    rw [List.head?_cons, Option.some.injEq] at hthis
    rw [← hthis]
    exact Or.inl ⟨Sum.inr c0, by simp, rfl⟩

theorem chain'_ofToks {ts : List Tok} (hWF : ToksWF ts)
    (hchain : List.Chain' (fun a b => ¬(spTok a ∧ spTok b)) ts) :
    List.Chain' (fun a b => ¬(isSpaceChar a = true ∧ isSpaceChar b = true)) (ofToks ts) := by
  induction ts with
  | nil => simp [ofToks]
  | cons t ts' ih =>
    have hWF' : ToksWF ts' :=
      ⟨fun u hu => hWF.1 u (by simp [hu]), (List.chain'_cons'.1 hWF.2).2⟩
    have hchain' := (List.chain'_cons'.1 hchain).2
    have ihs := ih hWF' hchain'
    cases t with
    | inl w =>
      obtain ⟨hne, hall⟩ := hWF.1 (Sum.inl w) (by simp)
      show List.Chain' _ (w ++ ofToks ts')
      rw [List.chain'_append]
      refine ⟨chain'_of_all_nospace (fun a ha => not_isSpaceChar_of_isWordChar (hall a ha)),
        ihs, ?_⟩
      intro x hx y hy
      rintro ⟨h1, -⟩
      have hxw : x ∈ w := by
        obtain ⟨ys, hys⟩ := List.getLast?_eq_some_iff.1 hx
        rw [hys]
        simp
      rw [not_isSpaceChar_of_isWordChar (hall x hxw)] at h1
      exact absurd h1 (by simp)
    | inr c0 =>
      show List.Chain' _ (c0 :: ofToks ts')
      rw [List.chain'_cons']
      refine ⟨?_, ihs⟩
      intro y hy
      rintro ⟨h1, h2⟩
      rcases head_ofToks_sep hWF' y hy with ⟨t2, ht2, rfl⟩ | hw
      · have hrel := (List.chain'_cons'.1 hchain).1 (Sum.inr y) ht2
        exact hrel ⟨h1, h2⟩
      · rw [not_isSpaceChar_of_isWordChar hw] at h2
        exact absurd h2 (by simp)

theorem wsOK_ofToks {ts : List Tok} (hWF : ToksWF ts) (hsp : ToksSpacing ts) :
    wsOK (ofToks ts) := by
  obtain ⟨hmem, hchain, hhead, hlast⟩ := hsp
  constructor
  · intro c hc hcsp
    rcases mem_ofToks_decomp hc with ⟨w, hw, hcw⟩ | h
    · obtain ⟨-, hall⟩ := hWF.1 (Sum.inl w) hw
      rw [not_isSpaceChar_of_isWordChar (hall c hcw)] at hcsp
      exact absurd hcsp (by simp)
    · have := hmem (Sum.inr c) h hcsp
      injection this
  · exact chain'_ofToks hWF hchain

/-- On the image of a well-formed, canonically spaced token list, the
`strip`-then-collapse preprocessing of both address cleaners is the
identity. -/
theorem collapse_strip_ofToks {ts : List Tok} (hWF : ToksWF ts) (hsp : ToksSpacing ts) :
    collapseWs (stripWs (ofToks ts)) = ofToks ts := by
  rw [stripWs_eq_self (head_ofToks_nospace hWF hsp.2.2.1)
    (last_ofToks_nospace hWF hsp.2.2.2)]
  exact collapseWs_eq_self (wsOK_ofToks hWF hsp)

/-! ## The cleaners as word-wise maps -/

/-- The substitution chain of `applySubs`, viewed on a single word run. -/
def applyWordSubs (ci : Bool) (subs : List (List Char × List Char)) (w : List Char) :
    List Char :=
  subs.foldl (fun v pr => if wordMatches ci pr.1 v then pr.2 else v) w

/-- All replacement strings are nonempty word-character runs. -/
def SubsOK (subs : List (List Char × List Char)) : Prop :=
  ∀ pr ∈ subs, pr.2 ≠ [] ∧ ∀ c ∈ pr.2, isWordChar c = true

theorem wordPres_sub {ci : Bool} {pat repl : List Char}
    (hr : repl ≠ [] ∧ ∀ c ∈ repl, isWordChar c = true) :
    WordPres (fun w => if wordMatches ci pat w then repl else w) := by
  intro w hne hall
  show (if wordMatches ci pat w then repl else w) ≠ [] ∧
    ∀ c ∈ (if wordMatches ci pat w then repl else w), isWordChar c = true
  by_cases h : wordMatches ci pat w = true
  · rw [if_pos h]
    exact hr
  · rw [if_neg h]
    exact ⟨hne, hall⟩

theorem wordPres_comp {f g : List Char → List Char} (hf : WordPres f) (hg : WordPres g) :
    WordPres (fun w => f (g w)) := by
  intro w hne hall
  obtain ⟨h1, h2⟩ := hg w hne hall
  exact hf (g w) h1 h2

theorem wordPres_applyWordSubs {ci : Bool} {subs : List (List Char × List Char)}
    (h : SubsOK subs) : WordPres (applyWordSubs ci subs) := by
  induction subs with
  | nil => exact fun w hne hall => ⟨hne, hall⟩
  | cons pr subs ih =>
    have hpr := h pr (by simp)
    have ih' := ih fun q hq => h q (by simp [hq])
    intro w hne hall
    show (applyWordSubs ci subs (if wordMatches ci pr.1 w then pr.2 else w)) ≠ [] ∧ _
    obtain ⟨h1, h2⟩ := @wordPres_sub ci pr.1 pr.2 hpr w hne hall
    exact ih' _ h1 h2

theorem mapToks_id (ts : List Tok) : mapToks (fun w => w) ts = ts := by
  induction ts with
  | nil => rfl
  | cons t ts ih =>
    show (match t with | Sum.inl w => Sum.inl w | Sum.inr c => (Sum.inr c : Tok))
        :: mapToks (fun w => w) ts = t :: ts
    rw [ih]
    cases t <;> rfl

theorem mapWords_id (cs : List Char) : mapWords (fun w => w) cs = cs := by
  unfold mapWords
  rw [mapToks_id]
  simpa using ofToks_toToks cs []

theorem applySubs_eq_mapWords {ci : Bool} {subs : List (List Char × List Char)}
    (h : SubsOK subs) (cs : List Char) :
    applySubs ci subs cs = mapWords (applyWordSubs ci subs) cs := by
  induction subs generalizing cs with
  | nil =>
    show cs = mapWords (fun w => w) cs
    exact (mapWords_id cs).symm
  | cons pr subs ih =>
    have hpr := h pr (by simp)
    have hsub : WordPres (fun w => if wordMatches ci pr.1 w then pr.2 else w) :=
      wordPres_sub hpr
    show applySubs ci subs (reSubWord ci pr.1 pr.2 cs) = _
    rw [ih (fun q hq => h q (by simp [hq]))]
    show mapWords (applyWordSubs ci subs)
        (mapWords (fun w => if wordMatches ci pr.1 w then pr.2 else w) cs) = _
    rw [mapWords_mapWords hsub]
    rfl

theorem pyUpper_ofToks {ts : List Tok} (hWF : ToksWF ts) :
    pyUpper (ofToks ts) = ofToks (mapToks pyUpper ts) := by
  induction ts with
  | nil => rfl
  | cons t ts' ih =>
    have hWF' : ToksWF ts' :=
      ⟨fun u hu => hWF.1 u (by simp [hu]), (List.chain'_cons'.1 hWF.2).2⟩
    cases t with
    | inl w =>
      show pyUpper (w ++ ofToks ts') = pyUpper w ++ ofToks (mapToks pyUpper ts')
      rw [← ih hWF']
      exact List.map_append _ _ _
    | inr c =>
      have hc : isWordChar c = false := hWF.1 (Sum.inr c) (by simp)
      show pyUpper (c :: ofToks ts') = c :: ofToks (mapToks pyUpper ts')
      rw [← ih hWF']
      show Char.toUpper c :: pyUpper (ofToks ts') = c :: pyUpper (ofToks ts')
      rw [toUpper_of_not_isAlpha (not_isCased_of_not_isWordChar hc)]

theorem pyUpper_eq_mapWords (cs : List Char) : pyUpper cs = mapWords pyUpper cs := by
  unfold mapWords
  rw [← pyUpper_ofToks (toToks_WF cs)]
  congr 1
  simpa using (ofToks_toToks cs []).symm

theorem wordPres_pyUpper : WordPres pyUpper := by
  intro w hne hall
  constructor
  · unfold pyUpper
    simp [hne]
  · intro c hc
    obtain ⟨c0, hc0, rfl⟩ := List.mem_map.1 hc
    rw [isWordChar_toUpper]
    exact hall c0 hc0

/-- The "previous character was cased" state after scanning `a`. -/
def stateAfter (s : Bool) (a : List Char) : Bool :=
  a.foldl (fun _ c => isCased c) s

theorem pyTitleAux_append (a : List Char) :
    ∀ (b : List Char) (s : Bool),
      pyTitleAux s (a ++ b) = pyTitleAux s a ++ pyTitleAux (stateAfter s a) b := by
  induction a with
  | nil => intro b s; rfl
  | cons c a' ih =>
    intro b s
    show (if isCased c then (if s then c.toLower else c.toUpper) else c)
        :: pyTitleAux (isCased c) (a' ++ b) =
      ((if isCased c then (if s then c.toLower else c.toUpper) else c)
        :: pyTitleAux (isCased c) a') ++ pyTitleAux (stateAfter (isCased c) a') b
    rw [ih b (isCased c)]
    rfl

theorem pyTitleAux_uncased_head {c : Char} (hc : isCased c = false) (rest : List Char)
    (s : Bool) : pyTitleAux s (c :: rest) = c :: pyTitleAux false rest := by
  show (if isCased c then (if s then c.toLower else c.toUpper) else c)
      :: pyTitleAux (isCased c) rest = _
  rw [hc]
  rw [if_neg (by simp)]

theorem pyTitle_ofToks {ts : List Tok} (hWF : ToksWF ts) :
    pyTitleAux false (ofToks ts) = ofToks (mapToks pyTitle ts) := by
  induction ts with
  | nil => rfl
  | cons t ts' ih =>
    have hWF' : ToksWF ts' :=
      ⟨fun u hu => hWF.1 u (by simp [hu]), (List.chain'_cons'.1 hWF.2).2⟩
    cases t with
    | inl w =>
      show pyTitleAux false (w ++ ofToks ts') = pyTitle w ++ ofToks (mapToks pyTitle ts')
      rw [pyTitleAux_append]
      unfold pyTitle
      congr 1
      match hts : ts' with
      | [] => rfl
      | Sum.inl w2 :: ts'' =>
        exfalso
        have := (List.chain'_cons'.1 hWF.2).1 (Sum.inl w2) (by simp)
        exact this ⟨trivial, trivial⟩
      | Sum.inr c :: ts'' =>
        have hc : isWordChar c = false := hWF.1 (Sum.inr c) (by simp)
        have hcc : isCased c = false := not_isCased_of_not_isWordChar hc
        show pyTitleAux _ (c :: ofToks ts'') = _
        rw [pyTitleAux_uncased_head hcc, ← pyTitleAux_uncased_head hcc (ofToks ts'') false]
        exact ih hWF'
    | inr c =>
      have hc : isWordChar c = false := hWF.1 (Sum.inr c) (by simp)
      have hcc : isCased c = false := not_isCased_of_not_isWordChar hc
      show pyTitleAux false (c :: ofToks ts') = c :: ofToks (mapToks pyTitle ts')
      rw [pyTitleAux_uncased_head hcc, ih hWF']

theorem pyTitle_eq_mapWords (cs : List Char) : pyTitle cs = mapWords pyTitle cs := by
  unfold mapWords
  rw [show pyTitle cs = pyTitleAux false cs from rfl, ← pyTitle_ofToks (toToks_WF cs)]
  congr 1
  simpa using (ofToks_toToks cs []).symm

theorem pyTitleAux_length (w : List Char) : ∀ b, (pyTitleAux b w).length = w.length := by
  induction w with
  | nil => intro b; rfl
  | cons c rest ih =>
    intro b
    show (_ :: pyTitleAux (isCased c) rest).length = _
    simp [ih]

theorem pyTitleAux_all_word {w : List Char} (hall : ∀ c ∈ w, isWordChar c = true) :
    ∀ b, ∀ c ∈ pyTitleAux b w, isWordChar c = true := by
  induction w with
  | nil => intro b c hc; simp [pyTitleAux] at hc
  | cons c0 rest ih =>
    intro b c hc
    rcases List.mem_cons.1 hc with h | h
    · subst h
      by_cases hc0 : isCased c0 = true
      · rw [if_pos (by simp [hc0])]
        by_cases hb : b = true
        · rw [if_pos hb, isWordChar_toLower]
          exact hall c0 (by simp)
        · rw [if_neg hb, isWordChar_toUpper]
          exact hall c0 (by simp)
      · rw [Bool.not_eq_true] at hc0
        rw [if_neg (by simp [hc0])]
        exact hall c0 (by simp)
    · exact ih (fun x hx => hall x (by simp [hx])) (isCased c0) c h

theorem wordPres_pyTitle : WordPres pyTitle := by
  intro w hne hall
  constructor
  · unfold pyTitle
    intro hnil
    have := pyTitleAux_length w false
    rw [hnil] at this
    exact hne (List.length_eq_zero.1 this.symm)
  · exact pyTitleAux_all_word hall false

/-! ## Per-word idempotence of the two cleaners -/

theorem pyUpper_pyUpper (w : List Char) : pyUpper (pyUpper w) = pyUpper w := by
  unfold pyUpper
  rw [List.map_map]
  apply List.map_congr_left
  intro c _
  exact toUpper_toUpper c

/-- No pattern of `subs` matches `v` case-insensitively. -/
def NoMatchCI (subs : List (List Char × List Char)) (v : List Char) : Prop :=
  ∀ pr ∈ subs, pyUpper v ≠ pr.1

theorem applyWordSubs_of_noMatchCI {subs : List (List Char × List Char)} {v : List Char}
    (h : NoMatchCI subs v) : applyWordSubs true subs v = v := by
  induction subs with
  | nil => rfl
  | cons pr subs ih =>
    have hpr : pyUpper v ≠ pr.1 := h pr (by simp)
    show applyWordSubs true subs (if wordMatches true pr.1 v then pr.2 else v) = v
    rw [if_neg (by simp [wordMatches, hpr])]
    exact ih fun q hq => h q (by simp [hq])

theorem applyWordSubs_outcome (subs : List (List Char × List Char)) (v : List Char) :
    (applyWordSubs true subs v = v ∧ NoMatchCI subs v) ∨
    ∃ pr ∈ subs, applyWordSubs true subs v = pr.2 := by
  induction subs generalizing v with
  | nil => exact Or.inl ⟨rfl, by intro pr hpr; simp at hpr⟩
  | cons pr subs ih =>
    by_cases hm : wordMatches true pr.1 v = true
    · refine Or.inr ?_
      have hstep : applyWordSubs true (pr :: subs) v = applyWordSubs true subs pr.2 := by
        show applyWordSubs true subs (if wordMatches true pr.1 v then pr.2 else v) = _
        rw [if_pos hm]
      rcases ih pr.2 with ⟨hid, -⟩ | ⟨pr', hpr', hv'⟩
      · exact ⟨pr, by simp, by rw [hstep, hid]⟩
      · exact ⟨pr', by simp [hpr'], by rw [hstep, hv']⟩
    · have hstep : applyWordSubs true (pr :: subs) v = applyWordSubs true subs v := by
        show applyWordSubs true subs (if wordMatches true pr.1 v then pr.2 else v) = _
        rw [if_neg hm]
      rcases ih v with ⟨hid, hnm⟩ | ⟨pr', hpr', hv'⟩
      · refine Or.inl ⟨by rw [hstep, hid], ?_⟩
        intro q hq
        rcases List.mem_cons.1 hq with h | h
        · subst h
          intro he
          exact hm (by simp [wordMatches, he])
        · exact hnm q h
      · exact Or.inr ⟨pr', by simp [hpr'], by rw [hstep, hv']⟩

/-- The full per-word transformation of `clean_address`: the sixteen
case-insensitive whole-word substitutions followed by uppercasing. -/
def dispWordF (w : List Char) : List Char :=
  pyUpper (applyWordSubs true (directionalMap ++ streetTypes) w)

theorem noMatchCI_pyUpper {subs : List (List Char × List Char)} {v : List Char}
    (h : NoMatchCI subs v) : NoMatchCI subs (pyUpper v) := by
  intro pr hpr
  rw [pyUpper_pyUpper]
  exact h pr hpr

theorem dispSubs_replacements :
    ∀ pr ∈ directionalMap ++ streetTypes,
      pyUpper pr.2 = pr.2 ∧ NoMatchCI (directionalMap ++ streetTypes) pr.2 := by
  unfold NoMatchCI
  decide

theorem dispWordF_idem (w : List Char) : dispWordF (dispWordF w) = dispWordF w := by
  unfold dispWordF
  rcases applyWordSubs_outcome (directionalMap ++ streetTypes) w with ⟨hid, hnm⟩ |
    ⟨pr, hpr, hv⟩
  · rw [hid, applyWordSubs_of_noMatchCI (noMatchCI_pyUpper hnm), pyUpper_pyUpper]
  · obtain ⟨hup, hnm⟩ := dispSubs_replacements pr hpr
    rw [hv, hup, applyWordSubs_of_noMatchCI hnm, hup]

set_option maxHeartbeats 2000000 in
theorem subsOK_disp : SubsOK (directionalMap ++ streetTypes) := by
  unfold SubsOK
  decide

theorem wordPres_dispWordF : WordPres dispWordF := by
  intro w hne hall
  obtain ⟨h1, h2⟩ := wordPres_applyWordSubs subsOK_disp w hne hall
  exact wordPres_pyUpper _ h1 h2

/-- The full per-word transformation of `clean_address_for_cache`: title case
followed by the nine case-sensitive abbreviation fixups. -/
def cacheWordF (w : List Char) : List Char :=
  applyWordSubs false fixAbbrevs (pyTitle w)

theorem self_sub (p v : List Char) : (if wordMatches false p v then p else v) = v := by
  by_cases h : wordMatches false p v = true
  · rw [if_pos h]
    unfold wordMatches at h
    rw [if_neg (by simp)] at h
    exact (of_decide_eq_true h).symm
  · rw [if_neg h]

theorem applyWordSubs_cons (ci : Bool) (pr : List Char × List Char)
    (subs : List (List Char × List Char)) (v : List Char) :
    applyWordSubs ci (pr :: subs) v =
      applyWordSubs ci subs (if wordMatches ci pr.1 v then pr.2 else v) := rfl

theorem applyWordSubs_fixAbbrevs (v : List Char) :
    applyWordSubs false fixAbbrevs v =
      if wordMatches false ("Fl".data) v then "FL".data else v := by
  unfold fixAbbrevs
  rw [applyWordSubs_cons]
  generalize (if wordMatches false ("Fl".data) v then "FL".data else v) = u
  rw [applyWordSubs_cons, self_sub, applyWordSubs_cons, self_sub,
    applyWordSubs_cons, self_sub, applyWordSubs_cons, self_sub,
    applyWordSubs_cons, self_sub, applyWordSubs_cons, self_sub,
    applyWordSubs_cons, self_sub, applyWordSubs_cons, self_sub]
  rfl

/-- One step of `str.title`: the transformation of a character given the
"previous character was cased" state. -/
def titleStep (b : Bool) (c : Char) : Char :=
  if isCased c = true then (if b = true then c.toLower else c.toUpper) else c

theorem pyTitleAux_cons (b : Bool) (c : Char) (rest : List Char) :
    pyTitleAux b (c :: rest) = titleStep b c :: pyTitleAux (isCased c) rest := rfl

theorem titleStep_isCased (b : Bool) (c : Char) : isCased (titleStep b c) = isCased c := by
  unfold titleStep
  by_cases hc : isCased c = true
  · rw [if_pos hc]
    by_cases hb : b = true
    · rw [if_pos hb]
      show (Char.toLower c).isAlpha = isCased c
      rw [isAlpha_toLower]
      rfl
    · rw [if_neg hb]
      show (Char.toUpper c).isAlpha = isCased c
      rw [isAlpha_toUpper]
      rfl
  · rw [if_neg hc]

theorem titleStep_titleStep (b : Bool) (c : Char) :
    titleStep b (titleStep b c) = titleStep b c := by
  by_cases hc : isCased c = true
  · have hc' : isCased (titleStep b c) = true := by rw [titleStep_isCased, hc]
    unfold titleStep
    rw [if_pos hc]
    by_cases hb : b = true
    · rw [if_pos hb]
      have : isCased c.toLower = true := by
        show c.toLower.isAlpha = true
        rw [isAlpha_toLower]
        exact hc
      rw [if_pos this, if_pos hb, toLower_toLower]
    · rw [if_neg hb]
      have : isCased c.toUpper = true := by
        show c.toUpper.isAlpha = true
        rw [isAlpha_toUpper]
        exact hc
      rw [if_pos this, if_neg hb, toUpper_toUpper]
  · unfold titleStep
    rw [if_neg hc, if_neg hc]

theorem pyTitleAux_idem (w : List Char) :
    ∀ b, pyTitleAux b (pyTitleAux b w) = pyTitleAux b w := by
  induction w with
  | nil => intro b; rfl
  | cons c rest ih =>
    intro b
    rw [pyTitleAux_cons, pyTitleAux_cons, titleStep_titleStep, titleStep_isCased,
      ih (isCased c)]

set_option maxHeartbeats 2000000 in
theorem subsOK_fixAbbrevs : SubsOK fixAbbrevs := by
  unfold SubsOK
  decide

theorem wordPres_cacheWordF : WordPres cacheWordF := by
  intro w hne hall
  obtain ⟨h1, h2⟩ := wordPres_pyTitle w hne hall
  exact wordPres_applyWordSubs subsOK_fixAbbrevs _ h1 h2

theorem cacheWordF_idem (w : List Char) : cacheWordF (cacheWordF w) = cacheWordF w := by
  unfold cacheWordF
  rw [applyWordSubs_fixAbbrevs (pyTitle w)]
  by_cases hm : wordMatches false ("Fl".data) (pyTitle w) = true
  · rw [if_pos hm]
    rw [show pyTitle ("FL".data) = "Fl".data by decide]
    rw [applyWordSubs_fixAbbrevs]
    rw [if_pos (by decide)]
  · rw [if_neg hm]
    rw [show pyTitle (pyTitle w) = pyTitle w from pyTitleAux_idem w false]
    rw [applyWordSubs_fixAbbrevs, if_neg hm]

/-! ## Idempotence of the address cleaners (claim C1) -/

theorem applySubs_append (ci : Bool) (A B : List (List Char × List Char)) (cs : List Char) :
    applySubs ci B (applySubs ci A cs) = applySubs ci (A ++ B) cs := by
  unfold applySubs
  rw [List.foldl_append]


theorem clean_address_data (t0 : List Char) :
    pyUpper (applySubs true streetTypes (applySubs true directionalMap t0)) =
      mapWords dispWordF t0 := by
  rw [applySubs_append, applySubs_eq_mapWords subsOK_disp, pyUpper_eq_mapWords,
    mapWords_mapWords (wordPres_applyWordSubs subsOK_disp)]
  rfl

theorem clean_address_eq {x : String} (hx : x ≠ "") :
    clean_address x = ⟨mapWords dispWordF (collapseWs (stripWs x.data))⟩ := by
  unfold clean_address
  rw [if_neg hx]
  exact congrArg String.mk (clean_address_data (collapseWs (stripWs x.data)))

theorem clean_address_for_cache_data (t0 : List Char) :
    applySubs false fixAbbrevs (pyTitle t0) = mapWords cacheWordF t0 := by
  rw [applySubs_eq_mapWords subsOK_fixAbbrevs, pyTitle_eq_mapWords,
    mapWords_mapWords wordPres_pyTitle]
  rfl

theorem clean_address_for_cache_eq {x : String} (hx : x ≠ "") :
    clean_address_for_cache x = ⟨mapWords cacheWordF (collapseWs (stripWs x.data))⟩ := by
  unfold clean_address_for_cache
  rw [if_neg hx]
  exact congrArg String.mk (clean_address_for_cache_data (collapseWs (stripWs x.data)))

theorem spacing_collapse_strip (x : List Char) :
    ToksSpacing (toToks [] (collapseWs (stripWs x))) :=
  toToks_spacing (wsOK_collapseWs _)
    (headNospace_collapseWs (headNospace_stripWs _))
    (lastNospace_collapseWs (lastNospace_stripWs _))

theorem mapWords_idem_total {F : List Char → List Char} (hF : WordPres F)
    (hid : ∀ w, F (F w) = F w) (t0 : List Char) :
    mapWords F (mapWords F t0) = mapWords F t0 := by
  rw [mapWords_mapWords hF]
  unfold mapWords
  rw [mapToks_congr hid]

theorem cleaner_idem_core {F : List Char → List Char} (hF : WordPres F)
    (hid : ∀ w, F (F w) = F w) {t0 : List Char}
    (hsp : ToksSpacing (toToks [] t0)) :
    mapWords F (collapseWs (stripWs (mapWords F t0))) = mapWords F t0 := by
  rw [show collapseWs (stripWs (mapWords F t0)) = mapWords F t0 from
    collapse_strip_ofToks (mapToks_WF hF (toToks_WF t0)) (mapToks_spacing hsp)]
  exact mapWords_idem_total hF hid t0

theorem clean_address_idem (x : String) :
    clean_address (clean_address x) = clean_address x := by
  by_cases hx : x = ""
  · subst hx
    rfl
  · rw [clean_address_eq hx]
    by_cases hy : (⟨mapWords dispWordF (collapseWs (stripWs x.data))⟩ : String) = ""
    · rw [hy]
      rfl
    · rw [clean_address_eq hy]
      show (⟨mapWords dispWordF (collapseWs (stripWs
          (mapWords dispWordF (collapseWs (stripWs x.data)))))⟩ : String) = _
      exact congrArg String.mk
        (cleaner_idem_core wordPres_dispWordF dispWordF_idem (spacing_collapse_strip x.data))

theorem clean_address_for_cache_idem (x : String) :
    clean_address_for_cache (clean_address_for_cache x) = clean_address_for_cache x := by
  by_cases hx : x = ""
  · subst hx
    rfl
  · rw [clean_address_for_cache_eq hx]
    by_cases hy : (⟨mapWords cacheWordF (collapseWs (stripWs x.data))⟩ : String) = ""
    · rw [hy]
      rfl
    · rw [clean_address_for_cache_eq hy]
      show (⟨mapWords cacheWordF (collapseWs (stripWs
          (mapWords cacheWordF (collapseWs (stripWs x.data)))))⟩ : String) = _
      exact congrArg String.mk
        (cleaner_idem_core wordPres_cacheWordF cacheWordF_idem (spacing_collapse_strip x.data))

/-! ## Data model

Python values appearing in permit records.  Raw government data arrives as JSON
text, so raw field values are strings or nulls; numeric values (`vn`) arise
inside the pipeline from `float()` parsing.  `pyStr` abstracts Python `str()`:
exact for strings and `None`; the repr of floats is abstracted by `toString`
on `ℚ` (no claim depends on it). -/

inductive PVal where
  | vs (s : String)
  | vn (q : ℚ)
  | vnull
deriving DecidableEq, Repr

/-- Python truthiness of a value. -/
def pyTruthy : PVal → Bool
  | .vs s => s ≠ ""
  | .vn q => q ≠ 0
  | .vnull => false

/-- Python `str()`. -/
def pyStr : PVal → String
  | .vs s => s
  | .vn q => toString q
  | .vnull => "None"

/-- A raw permit: a mapping of source-system field names to values. -/
abbrev RawPermit := List (String × PVal)

/-- Association-list lookup (Python `dict` access; keys are unique by
convention, first binding wins). -/
def alGet : List (String × α) → String → Option α
  | [], _ => none
  | (k, v) :: rest, key => if k = key then some v else alGet rest key

/-- Python `dict.get(k, default)`. -/
def pyGet (raw : RawPermit) (k : String) (dflt : PVal) : PVal :=
  (alGet raw k).getD dflt

/-- Association-list insert-or-overwrite (Python `dict` assignment). -/
def alSet : List (String × α) → String → α → List (String × α)
  | [], k, v => [(k, v)]
  | (k', v') :: rest, k, v =>
    if k' = k then (k, v) :: rest else (k', v') :: alSet rest k v

/-- The growing `normalized_data` dict of `normalize_permit`, with one field
per canonical key; `none` = key absent.  `coordinates` is
`Option (Option _)`: outer `none` = key absent, inner `none` = key present
with value `None`. -/
structure PermitData where
  permit_id : Option PVal := none
  source_county : Option PVal := none
  permit_type : Option PVal := none
  description : Option PVal := none
  address : Option PVal := none
  city : Option PVal := none
  zipcode : Option PVal := none
  applicant_name : Option PVal := none
  contractor_name : Option PVal := none
  permit_value : Option PVal := none
  issue_date : Option PVal := none
  expiration_date : Option PVal := none
  status : Option PVal := none
  coordinates : Option (Option (ℚ × ℚ)) := none
deriving DecidableEq, Repr

/-- `value = raw_permit.get(source_field); if value is not None: ...`:
a field is copied only when present and non-null. -/
def lookupMapped (raw : RawPermit) (srcField : String) : Option PVal :=
  match alGet raw srcField with
  | some v => if v = .vnull then none else some v
  | none => none

/-- The per-county `field_mappings` table applied to a raw permit
(`normalize_permit` steps 1-2); an unmapped county yields the empty mapping,
leaving only `source_county`. -/
def mapFields (county : PVal) (raw : RawPermit) : PermitData :=
  if county = .vs "miami-dade" then
    { source_county := some county
      permit_id := lookupMapped raw "FOLIO"
      permit_type := lookupMapped raw "PERMIT_TYPE"
      description := lookupMapped raw "DESC1"
      address := lookupMapped raw "ADDRESS"
      city := lookupMapped raw "CITY"
      zipcode := lookupMapped raw "ZIP"
      applicant_name := lookupMapped raw "APPLICANT"
      contractor_name := lookupMapped raw "CONTRACTOR"
      permit_value := lookupMapped raw "JOB_VAL"
      issue_date := lookupMapped raw "ISSUDATE"
      expiration_date := lookupMapped raw "EXPRDATE"
      status := lookupMapped raw "STATUS" }
  else if county = .vs "hillsborough" then
    { source_county := some county
      permit_id := lookupMapped raw "Record Number"
      permit_type := lookupMapped raw "Record Type"
      description := lookupMapped raw "Description"
      address := lookupMapped raw "Address"
      city := lookupMapped raw "City"
      zipcode := lookupMapped raw "Zip"
      applicant_name := lookupMapped raw "Applicant Name"
      contractor_name := lookupMapped raw "Contractor Name"
      permit_value := lookupMapped raw "Estimated Value"
      issue_date := lookupMapped raw "Date"
      expiration_date := lookupMapped raw "Expiration Date"
      status := lookupMapped raw "Status" }
  else { source_county := some county }

/-- The kept `DESC1..DESC10` parts for a Miami-Dade record: fields scanned in
index order, a part kept when the key is present and the value truthy, the
kept value being `str(value).strip()`. -/
def descParts (raw : RawPermit) : List String :=
  (List.range' 1 10).filterMap fun i =>
    match alGet raw ("DESC" ++ toString i) with
    | some v => if pyTruthy v then some (⟨stripWs (pyStr v).data⟩ : String) else none
    | none => none

/-- The Miami-Dade multi-part description override. -/
def applyDescs (county : PVal) (raw : RawPermit) (d : PermitData) : PermitData :=
  if county = .vs "miami-dade" then
    if descParts raw = [] then d
    else { d with description := some (.vs (String.intercalate " | " (descParts raw))) }
  else d

/-- `(c :: digits, rest)` split of a leading digit run. -/
def splitDigits : List Char → List Char × List Char
  | [] => ([], [])
  | c :: rest =>
    if c.isDigit then
      let p := splitDigits rest
      (c :: p.1, p.2)
    else ([], c :: rest)

def natOfDigits (ds : List Char) : ℕ :=
  ds.foldl (fun a c => 10 * a + (c.toNat - 48)) 0

/-- The parsed components of a Python `float()` string: sign, integer-part
digits, fraction digits, optional exponent (sign, digits).  The parse is
string-only; no rational arithmetic. -/
def pyFloatParts? (s : String) :
    Option (Bool × List Char × List Char × Option (Bool × List Char)) :=
  let cs := stripWs s.data
  let sign : Bool × List Char :=
    match cs with
    | [] => (true, [])
    | c :: r => if c = '+' then (true, r) else if c = '-' then (false, r) else (true, c :: r)
  let ip := splitDigits sign.2
  let fp : List Char × List Char :=
    match ip.2 with
    | [] => ([], [])
    | c :: r => if c = '.' then splitDigits r else ([], c :: r)
  if ip.1 = [] ∧ fp.1 = [] then none
  else
    match fp.2 with
    | [] => some (sign.1, ip.1, fp.1, none)
    | e :: r =>
      if e = 'e' ∨ e = 'E' then
        let esign : Bool × List Char :=
          match r with
          | [] => (true, [])
          | c :: r2 => if c = '+' then (true, r2) else if c = '-' then (false, r2)
                       else (true, c :: r2)
        let ed := splitDigits esign.2
        if ed.1 = [] ∨ ed.2 ≠ [] then none
        else some (sign.1, ip.1, fp.1, some (esign.1, ed.1))
      else none

/-- The rational value denoted by parsed `float()` components. -/
def pyFloatVal (sign : Bool) (ip fp : List Char) (eopt : Option (Bool × List Char)) : ℚ :=
  let sgn : ℚ := if sign then 1 else -1
  let mant : ℚ := (natOfDigits ip : ℚ) + (natOfDigits fp : ℚ) / 10 ^ fp.length
  match eopt with
  | none => sgn * mant
  | some (es, ed) =>
    sgn * mant * (if es then (10 : ℚ) ^ natOfDigits ed else ((10 : ℚ) ^ natOfDigits ed)⁻¹)

/-- Python `float()` on a string, modelled over `ℚ`: optional surrounding
whitespace, optional sign, decimal mantissa with optional fraction, optional
exponent.  `inf`/`nan` and digit-group underscores are out of scope; any
input this parser rejects yields `none` (Python would raise `ValueError`,
which the caller catches). -/
def pyFloat? (s : String) : Option ℚ :=
  (pyFloatParts? s).map fun p => pyFloatVal p.1 p.2.1 p.2.2.1 p.2.2.2

/-- The permit-value cleaning step:
`str(v).replace('$','').replace(',','').strip()`, then `float(...)` with
empty string and parse failure both producing `None` (never raising). -/
def parse_permit_value (v : PVal) : PVal :=
  let s : String :=
    ⟨stripWs (((pyStr v).data.filter (fun c => c ≠ '$')).filter (fun c => c ≠ ','))⟩
  if s = "" then .vnull
  else
    match pyFloat? s with
    | some q => .vn q
    | none => .vnull

def applyValue (d : PermitData) : PermitData :=
  match d.permit_value with
  | some v => { d with permit_value := some (parse_permit_value v) }
  | none => d

def applyAddr (d : PermitData) : PermitData :=
  match d.address with
  | some v => { d with address := some (.vs (clean_address (pyStr v))) }
  | none => d

/-- `if field not in normalized_data or not normalized_data[field]`. -/
def defaultField (o : Option PVal) (dflt : String) : Option PVal :=
  match o with
  | some v => if pyTruthy v then some v else some (.vs dflt)
  | none => some (.vs dflt)

/-- The `required_defaults` pass of `normalize_permit`. -/
def applyDefaults (d : PermitData) : PermitData :=
  { d with
    permit_id := defaultField d.permit_id "UNKNOWN"
    permit_type := defaultField d.permit_type "UNKNOWN"
    description := defaultField d.description ""
    address := defaultField d.address ""
    city := defaultField d.city ""
    zipcode := defaultField d.zipcode "" }

/-! ## Geocoding with cache (source: `PermitProcessor.geocode_address`,
`load_geocoding_cache`, `save_geocoding_cache`)

The persisted cache maps address strings to `[lat, lng]` pairs or `null`.
The external service and file I/O are modelled by a response function and
event counters: `flushes` counts `save_geocoding_cache` calls, `stores`
counts cache writes, `apiCalls` counts external requests. -/

/-- Outcome of one external geocoding request: a location, an empty result
set, or any error (HTTP failure, timeout, malformed response — everything the
`except` clause catches). -/
inductive GeoResult where
  | found (lat lng : ℚ)
  | empty
  | error
deriving DecidableEq, Repr

/-- Processor state: configuration flags, the in-memory cache, and event
counters for flushes, cache stores and external calls. -/
structure GState where
  enableGeocoding : Bool
  hasApiKey : Bool
  cache : List (String × Option (ℚ × ℚ))
  flushes : ℕ := 0
  stores : ℕ := 0
  apiCalls : ℕ := 0
deriving DecidableEq, Repr

/-- `save_geocoding_cache`: serialize the whole mapping (contents unchanged in
the model; one flush event). -/
def save_geocoding_cache (st : GState) : GState :=
  { st with flushes := st.flushes + 1 }

/-- `.strip(", ")`: strip any mix of commas and spaces from both ends. -/
def stripCommaSpace (cs : List Char) : List Char :=
  ((cs.dropWhile fun c => c = ',' || c = ' ').reverse.dropWhile
    fun c => c = ',' || c = ' ').reverse

/-- The `full_address` built by `geocode_address`. -/
def fullAddress (address city zipcode : String) : String :=
  if city ≠ "" ∨ zipcode ≠ "" then
    ⟨stripCommaSpace (address ++ ", " ++ city ++ ", FL " ++ zipcode).data⟩
  else ⟨stripWs address.data⟩

/-- One cache probe: a hit only when the key is present and holds a
two-element pair (a stored `null` is skipped, exactly as
`if cached_result and len(cached_result) == 2`). -/
def cacheHit (cache : List (String × Option (ℚ × ℚ))) (k : String) : Option (ℚ × ℚ) :=
  match alGet cache k with
  | some (some c) => some c
  | _ => none

/-- `PermitProcessor.geocode_address`. -/
def geocode_address (svc : String → GeoResult) (st : GState)
    (address city zipcode : String) : GState × Option (ℚ × ℚ) :=
  if st.enableGeocoding = false then (st, none)
  else
    let fa := fullAddress address city zipcode
    let na := clean_address_for_cache fa
    match (cacheHit st.cache fa).orElse (fun _ => cacheHit st.cache na) with
    | some c => (st, some c)
    | none =>
      if st.hasApiKey = false then (st, none)
      else
        let st1 := { st with apiCalls := st.apiCalls + 1 }
        match svc fa with
        | .found la ln =>
          (save_geocoding_cache
            { st1 with cache := alSet st1.cache fa (some (la, ln)),
                       stores := st1.stores + 1 },
           some (la, ln))
        | .empty =>
          (save_geocoding_cache
            { st1 with cache := alSet st1.cache fa none,
                       stores := st1.stores + 1 },
           none)
        | .error => (st1, none)

/-! ## `normalize_permit`, the final record, and the batch driver -/

/-- `raw_permit.get('source_county', 'unknown')`. -/
def countyOf (raw : RawPermit) : PVal :=
  pyGet raw "source_county" (.vs "unknown")

/-- `normalized_data.get(key, '')` as the string handed to `geocode_address`. -/
def optStr : Option PVal → String
  | some v => pyStr v
  | none => ""

/-- `PermitProcessor.normalize_permit`, with the processing date and the
external service passed explicitly. -/
def normalize_permit (today : String) (svc : String → GeoResult) (st : GState)
    (raw : RawPermit) : GState × PermitData :=
  let county := countyOf raw
  let d0 := mapFields county raw
  let d1 := applyDescs county raw d0
  let d2 := applyValue d1
  let d3 := applyAddr d2
  let d4 := { d3 with issue_date := some (.vs today) }
  if st.enableGeocoding && pyTruthy (d4.address.getD .vnull) then
    let res := geocode_address svc st (optStr d4.address) (optStr d4.city) (optStr d4.zipcode)
    (res.1, applyDefaults { d4 with coordinates := some res.2 })
  else (st, applyDefaults d4)

/-- The `NormalizedPermit` dataclass.  Optional fields default to `None`;
`last_updated` (a wall-clock timestamp) is not modelled. -/
structure NormalizedPermit where
  permit_id : PVal
  source_county : PVal
  permit_type : PVal
  description : PVal
  address : PVal
  city : PVal
  zipcode : PVal
  coordinates : Option (ℚ × ℚ) := none
  applicant_name : Option PVal := none
  contractor_name : Option PVal := none
  permit_value : Option PVal := none
  issue_date : Option PVal := none
  expiration_date : Option PVal := none
  status : Option PVal := none
deriving DecidableEq, Repr

/-- A present-but-null optional field and an absent one both give `None`. -/
def flattenOpt : Option PVal → Option PVal
  | some .vnull => none
  | o => o

/-- `NormalizedPermit(**normalized_data)`: `none` models the `TypeError`
raised when a required field is missing (caught by the batch loop). -/
def mkPermit (d : PermitData) : Option NormalizedPermit :=
  match d.permit_id, d.source_county, d.permit_type, d.description,
    d.address, d.city, d.zipcode with
  | some pid, some sc, some pt, some de, some ad, some ci, some zi =>
    some { permit_id := pid, source_county := sc, permit_type := pt,
           description := de, address := ad, city := ci, zipcode := zi,
           coordinates := d.coordinates.getD none,
           applicant_name := flattenOpt d.applicant_name,
           contractor_name := flattenOpt d.contractor_name,
           permit_value := flattenOpt d.permit_value,
           issue_date := flattenOpt d.issue_date,
           expiration_date := flattenOpt d.expiration_date,
           status := flattenOpt d.status }
  | _, _, _, _, _, _, _ => none

/-- `PermitProcessor.process_permits`: iterate the records, calling the
per-record normalizer; a `none` outcome models a raised exception for that
record — it is logged and skipped (`except ...: continue`), never aborting
the batch.  State changes made before the failure persist. -/
def process_permits (step : GState → RawPermit → GState × Option NormalizedPermit) :
    GState → List RawPermit → GState × List NormalizedPermit
  | st, [] => (st, [])
  | st, r :: rest =>
    let s1 := step st r
    let s2 := process_permits step s1.1 rest
    match s1.2 with
    | some p => (s2.1, p :: s2.2)
    | none => (s2.1, s2.2)

/-- The per-record call made by `process_permits` in this pipeline:
`normalize_permit` followed by dataclass construction. -/
def normalizeStep (today : String) (svc : String → GeoResult) :
    GState → RawPermit → GState × Option NormalizedPermit :=
  fun st raw =>
    let r := normalize_permit today svc st raw
    (r.1, mkPermit r.2)

/-- `normalize_and_geocode_permits`: build the processor (flags and the cache
loaded from disk), process the batch, and — when geocoding is enabled — save
the cache once at the end. -/
def normalize_and_geocode_permits (today : String) (svc : String → GeoResult)
    (enable_geocoding hasApiKey : Bool) (cache0 : List (String × Option (ℚ × ℚ)))
    (raw_permits : List RawPermit) : GState × List NormalizedPermit :=
  let st0 : GState :=
    { enableGeocoding := enable_geocoding, hasApiKey := hasApiKey, cache := cache0 }
  let res := process_permits (normalizeStep today svc) st0 raw_permits
  if enable_geocoding then (save_geocoding_cache res.1, res.2) else res

/-- The sequence of per-record outcomes of a batch run, in input order
(specification-side oracle for the batch loop). -/
def runResults (step : GState → RawPermit → GState × Option NormalizedPermit) :
    GState → List RawPermit → List (Option NormalizedPermit)
  | _, [] => []
  | st, r :: rest => (step st r).2 :: runResults step (step st r).1 rest

/-! ## Projection lemmas for `normalize_permit` -/

/-- The record as it stands just before the geocoding step of
`normalize_permit` (field mapping, description combination, value parsing,
address cleaning, issue-date stamping). -/
def preGeocode (today : String) (raw : RawPermit) : PermitData :=
  { applyAddr (applyValue (applyDescs (countyOf raw) raw (mapFields (countyOf raw) raw)))
    with issue_date := some (.vs today) }

theorem normalize_permit_snd (today : String) (svc : String → GeoResult) (st : GState)
    (raw : RawPermit) :
    ∃ co, (normalize_permit today svc st raw).2 =
      applyDefaults { preGeocode today raw with coordinates := co } := by
  unfold normalize_permit preGeocode
  dsimp only
  split
  · exact ⟨_, rfl⟩
  · refine ⟨(applyAddr (applyValue (applyDescs (countyOf raw) raw
      (mapFields (countyOf raw) raw)))).coordinates, rfl⟩

theorem applyDescs_permit_value (county : PVal) (raw : RawPermit) (d : PermitData) :
    (applyDescs county raw d).permit_value = d.permit_value := by
  unfold applyDescs
  split
  · split <;> rfl
  · rfl

theorem applyValue_permit_value (d : PermitData) :
    (applyValue d).permit_value =
      match d.permit_value with
      | some v => some (parse_permit_value v)
      | none => none := by
  unfold applyValue
  cases hd : d.permit_value <;> simp [hd]

theorem applyAddr_permit_value (d : PermitData) :
    (applyAddr d).permit_value = d.permit_value := by
  unfold applyAddr
  cases hd : d.address <;> simp [hd]

theorem normalize_permit_permit_value (today : String) (svc : String → GeoResult)
    (st : GState) (raw : RawPermit) :
    (normalize_permit today svc st raw).2.permit_value =
      match (mapFields (countyOf raw) raw).permit_value with
      | some v => some (parse_permit_value v)
      | none => none := by
  obtain ⟨co, h⟩ := normalize_permit_snd today svc st raw
  rw [h]
  show (preGeocode today raw).permit_value = _
  show (applyAddr (applyValue (applyDescs (countyOf raw) raw
    (mapFields (countyOf raw) raw)))).permit_value = _
  rw [applyAddr_permit_value, applyValue_permit_value, applyDescs_permit_value]

theorem applyValue_description (d : PermitData) :
    (applyValue d).description = d.description := by
  unfold applyValue
  cases hd : d.permit_value <;> simp [hd]

theorem applyAddr_description (d : PermitData) :
    (applyAddr d).description = d.description := by
  unfold applyAddr
  cases hd : d.address <;> simp [hd]

theorem defaultField_vs (s : String) :
    defaultField (some (.vs s)) "" = some (.vs s) := by
  show (if pyTruthy (PVal.vs s) = true then some (PVal.vs s) else some (PVal.vs ""))
    = some (PVal.vs s)
  by_cases h : s = ""
  · subst h
    rw [if_neg (by simp [pyTruthy])]
  · rw [if_pos (by simp [pyTruthy, h])]

theorem normalize_permit_issue_date (today : String) (svc : String → GeoResult)
    (st : GState) (raw : RawPermit) :
    (normalize_permit today svc st raw).2.issue_date = some (.vs today) := by
  obtain ⟨co, h⟩ := normalize_permit_snd today svc st raw
  rw [h]
  rfl

/-! ## Claim theorems -/

/-- **C1.** The address cleaning functions are idempotent: for every input
string `x`, applying the display-mode cleaner twice equals applying it once
(`clean_address (clean_address x) = clean_address x`), and likewise for the
cache-key-mode cleaner `clean_address_for_cache`. -/
theorem C1_address_cleaners_idempotent (x : String) :
    clean_address (clean_address x) = clean_address x ∧
    clean_address_for_cache (clean_address_for_cache x) = clean_address_for_cache x :=
  ⟨clean_address_idem x, clean_address_for_cache_idem x⟩

/-- **C4, counterexample.** The claim says the cache-key cleaner expands
directional words (e.g. `NORTH` to `N`) and street-type words (e.g. `STREET`
to `ST`).  It does neither: on input `"NORTH"` it produces `"North"`, not
`"N"`, and on `"STREET"` it produces `"Street"`, not `"St"`. -/
theorem C4_cache_cleaner_counterexample :
    clean_address_for_cache "NORTH" = "North" ∧ ("North" : String) ≠ "N" ∧
    clean_address_for_cache "STREET" = "Street" ∧ ("Street" : String) ≠ "St" := by
  refine ⟨by decide, by decide, by decide, by decide⟩

/-- **C4, amended.** The cache-key cleaner applies three rules in order:
collapse internal whitespace, convert to title case, and restore the
upper-case spelling of the state abbreviation (`Fl` → `FL`; the remaining
eight substitutions of its fixup table are identities).  It does **not**
expand directional or street-type words to abbreviations. -/
theorem C4_cache_cleaner_amended :
    clean_address_for_cache "  123   NORTH  main  STREET  fl " = "123 North Main Street FL" ∧
    clean_address_for_cache "NORTH" = "North" ∧
    clean_address_for_cache "SOUTHEAST" = "Southeast" ∧
    clean_address_for_cache "STREET" = "Street" ∧
    clean_address_for_cache "BOULEVARD" = "Boulevard" ∧
    (∀ v : List Char, applyWordSubs false fixAbbrevs v =
      if wordMatches false ("Fl".data) v then "FL".data else v) := by
  refine ⟨by decide, by decide, by decide, by decide, by decide, applyWordSubs_fixAbbrevs⟩

theorem parse_permit_value_na : parse_permit_value (PVal.vs "N/A") = PVal.vnull := by decide

theorem parse_value_example : parse_permit_value (PVal.vs "$12,345.00") = PVal.vn 12345 := by
  have hs : (⟨stripWs ((((pyStr (PVal.vs "$12,345.00")).data.filter (fun c => c ≠ '$'))).filter
      (fun c => c ≠ ','))⟩ : String) = "12345.00" := by decide
  unfold parse_permit_value
  rw [hs]
  rw [if_neg (by decide : ¬("12345.00" : String) = "")]
  have hp : pyFloatParts? "12345.00" = some (true, "12345".data, "00".data, none) := by decide
  rw [show pyFloat? "12345.00" = some (pyFloatVal true "12345".data "00".data none) from by
    rw [pyFloat?, hp]; rfl]
  show PVal.vn (pyFloatVal true "12345".data "00".data none) = _
  congr 1
  unfold pyFloatVal
  rw [show natOfDigits "12345".data = 12345 from by decide,
    show natOfDigits "00".data = 0 from by decide,
    show ("00".data).length = 2 from by decide]
  norm_num

/-- **C5.** For every raw permit whose mapped `permit_value` is the string
`"$12,345.00"`, `normalize_permit` produces `permit_value = 12345.0`; for the
string `"N/A"` it produces an absent (`None`) `permit_value`; and the parsing
step is total, always producing either an absent value or a number (it never
raises). -/
theorem C5_permit_value_parsing (today : String) (svc : String → GeoResult)
    (st : GState) (raw : RawPermit) :
    ((mapFields (countyOf raw) raw).permit_value = some (.vs "$12,345.00") →
      (normalize_permit today svc st raw).2.permit_value = some (.vn 12345)) ∧
    ((mapFields (countyOf raw) raw).permit_value = some (.vs "N/A") →
      (normalize_permit today svc st raw).2.permit_value = some PVal.vnull) ∧
    (∀ v, parse_permit_value v = PVal.vnull ∨ ∃ q, parse_permit_value v = .vn q) := by
  refine ⟨?_, ?_, ?_⟩
  · intro h
    rw [normalize_permit_permit_value, h]
    show some (parse_permit_value (PVal.vs "$12,345.00")) = _
    rw [parse_value_example]
  · intro h
    rw [normalize_permit_permit_value, h]
    show some (parse_permit_value (PVal.vs "N/A")) = _
    rw [parse_permit_value_na]
  · intro v
    unfold parse_permit_value
    dsimp only
    split
    · exact Or.inl rfl
    · split
      · exact Or.inr ⟨_, rfl⟩
      · exact Or.inl rfl

def svc0 : String → GeoResult := fun _ => GeoResult.error

def st0 : GState := { enableGeocoding := false, hasApiKey := false, cache := [] }

def rawH5 : RawPermit :=
  [("source_county", PVal.vs "hillsborough"), ("Estimated Value", PVal.vs "$12,345.00")]

def rawH5n : RawPermit :=
  [("source_county", PVal.vs "hillsborough"), ("Estimated Value", PVal.vs "N/A")]

theorem C5_permit_value_parsing_witness :
    (normalize_permit "01/02/2026" svc0 st0 rawH5).2.permit_value = some (PVal.vn 12345) ∧
    (normalize_permit "01/02/2026" svc0 st0 rawH5n).2.permit_value = some PVal.vnull :=
  ⟨(C5_permit_value_parsing "01/02/2026" svc0 st0 rawH5).1 (by decide),
   (C5_permit_value_parsing "01/02/2026" svc0 st0 rawH5n).2.1 (by decide)⟩

/-- **C6.** For every miami-dade raw permit with at least one kept `DESC`
field, `normalize_permit` scans `DESC1..DESC10` in index order, keeps only
the non-empty (truthy) ones, and joins them with `" | "` as the description,
overriding the single-field mapping. -/
theorem C6_miami_description_combination (today : String) (svc : String → GeoResult)
    (st : GState) (raw : RawPermit) (h1 : countyOf raw = .vs "miami-dade")
    (h2 : descParts raw ≠ []) :
    (normalize_permit today svc st raw).2.description =
      some (.vs (String.intercalate " | " (descParts raw))) := by
  obtain ⟨co, h⟩ := normalize_permit_snd today svc st raw
  rw [h]
  show defaultField (preGeocode today raw).description "" = _
  have hd : (preGeocode today raw).description =
      some (.vs (String.intercalate " | " (descParts raw))) := by
    show (applyAddr (applyValue (applyDescs (countyOf raw) raw
      (mapFields (countyOf raw) raw)))).description = _
    rw [applyAddr_description, applyValue_description]
    unfold applyDescs
    rw [h1, if_pos rfl, if_neg h2]
  rw [hd, defaultField_vs]

def rawM6 : RawPermit :=
  [("source_county", PVal.vs "miami-dade"), ("DESC1", PVal.vs "Roof repair"),
   ("DESC3", PVal.vs "Reroof")]

theorem C6_miami_description_combination_witness :
    (normalize_permit "01/02/2026" svc0 st0 rawM6).2.description =
      some (PVal.vs "Roof repair | Reroof") := by
  have h := C6_miami_description_combination "01/02/2026" svc0 st0 rawM6 (by decide) (by decide)
  rw [h]
  decide

/-- **C9.** For every raw permit, `normalize_permit` sets `issue_date` to the
current processing date, even when the source record carries its own mapped
issue-date field (e.g. `ISSUDATE` for miami-dade), whose value is
overwritten. -/
theorem C9_issue_date_overwritten (today : String) (svc : String → GeoResult)
    (st : GState) (raw : RawPermit) :
    (normalize_permit today svc st raw).2.issue_date = some (.vs today) :=
  normalize_permit_issue_date today svc st raw

/-- The geocoding call exactly as `normalize_permit` issues it. -/
def geoStep (today : String) (svc : String → GeoResult) (st : GState) (raw : RawPermit) :
    GState × Option (ℚ × ℚ) :=
  geocode_address svc st (optStr (preGeocode today raw).address)
    (optStr (preGeocode today raw).city) (optStr (preGeocode today raw).zipcode)

/-- `normalize_permit` in terms of the pre-geocoding record. -/
theorem normalize_permit_eq (today : String) (svc : String → GeoResult) (st : GState)
    (raw : RawPermit) :
    normalize_permit today svc st raw =
      if st.enableGeocoding && pyTruthy ((preGeocode today raw).address.getD .vnull) then
        ((geoStep today svc st raw).1,
         applyDefaults { preGeocode today raw with coordinates := some (geoStep today svc st raw).2 })
      else (st, applyDefaults (preGeocode today raw)) := rfl

/-- **C10.** For every raw permit whose `source_county` tag is absent or not
one of the mapped counties, `normalize_permit` does not raise and returns a
record whose required fields carry the documented defaults, with
`source_county` set to the raw tag (`countyOf` yields `"unknown"` when the
tag is absent). -/
theorem C10_unmapped_county_defaults (today : String) (svc : String → GeoResult)
    (st : GState) (raw : RawPermit) (h1 : countyOf raw ≠ .vs "miami-dade")
    (h2 : countyOf raw ≠ .vs "hillsborough") :
    (normalize_permit today svc st raw).2.permit_id = some (.vs "UNKNOWN") ∧
    (normalize_permit today svc st raw).2.permit_type = some (.vs "UNKNOWN") ∧
    (normalize_permit today svc st raw).2.description = some (.vs "") ∧
    (normalize_permit today svc st raw).2.address = some (.vs "") ∧
    (normalize_permit today svc st raw).2.city = some (.vs "") ∧
    (normalize_permit today svc st raw).2.zipcode = some (.vs "") ∧
    (normalize_permit today svc st raw).2.source_county = some (countyOf raw) ∧
    (mkPermit (normalize_permit today svc st raw).2).isSome = true := by
  have hm : mapFields (countyOf raw) raw = { source_county := some (countyOf raw) } := by
    unfold mapFields
    rw [if_neg h1, if_neg h2]
  have hpre : preGeocode today raw =
      { source_county := some (countyOf raw), issue_date := some (.vs today) } := by
    unfold preGeocode applyDescs
    rw [hm, if_neg h1]
    rfl
  obtain ⟨co, h⟩ := normalize_permit_snd today svc st raw
  rw [h, hpre]
  exact ⟨rfl, rfl, rfl, rfl, rfl, rfl, rfl, rfl⟩

def rawB10 : RawPermit := [("source_county", PVal.vs "broward"), ("ADDRESS", PVal.vs "x")]

def rawE10 : RawPermit := []

theorem C10_unmapped_county_defaults_witness :
    (normalize_permit "01/02/2026" svc0 st0 rawB10).2.permit_id = some (PVal.vs "UNKNOWN") ∧
    (normalize_permit "01/02/2026" svc0 st0 rawB10).2.source_county = some (PVal.vs "broward") ∧
    (mkPermit (normalize_permit "01/02/2026" svc0 st0 rawB10).2).isSome = true ∧
    (normalize_permit "01/02/2026" svc0 st0 rawE10).2.source_county = some (PVal.vs "unknown") := by
  have hB := C10_unmapped_county_defaults "01/02/2026" svc0 st0 rawB10 (by decide) (by decide)
  have hE := C10_unmapped_county_defaults "01/02/2026" svc0 st0 rawE10 (by decide) (by decide)
  refine ⟨hB.1, ?_, hB.2.2.2.2.2.2.2, ?_⟩
  · rw [hB.2.2.2.2.2.2.1]
    decide
  · rw [hE.2.2.2.2.2.2.1]
    decide

/-- A cache probe that finds a two-element entry for the full address returns
it without touching the state. -/
theorem geocode_cache_hit (svc : String → GeoResult) (st : GState) (a c z : String)
    (lat lng : ℚ) (hen : st.enableGeocoding = true)
    (hcache : alGet st.cache (fullAddress a c z) = some (some (lat, lng))) :
    geocode_address svc st a c z = (st, some (lat, lng)) := by
  unfold geocode_address
  rw [hen]
  rw [if_neg (by simp)]
  have hhit : cacheHit st.cache (fullAddress a c z) = some (lat, lng) := by
    unfold cacheHit
    rw [hcache]
  dsimp only
  rw [hhit]
  rfl

/-- **C8.** For every address whose cache entry holds a `(lat, lng)` pair, a
subsequent normalization of a record with the same (cleaned) address performs
zero external geocoding calls — the processor state is fully unchanged — and
its coordinates equal the cached pair. -/
theorem C8_cached_pair_short_circuits (today : String) (svc : String → GeoResult)
    (st : GState) (raw : RawPermit) (lat lng : ℚ)
    (hen : st.enableGeocoding = true)
    (htr : pyTruthy ((preGeocode today raw).address.getD PVal.vnull) = true)
    (hcache : alGet st.cache (fullAddress (optStr (preGeocode today raw).address)
      (optStr (preGeocode today raw).city) (optStr (preGeocode today raw).zipcode)) =
      some (some (lat, lng))) :
    (normalize_permit today svc st raw).1 = st ∧
    (normalize_permit today svc st raw).2.coordinates = some (some (lat, lng)) ∧
    (normalize_permit today svc st raw).1.apiCalls = st.apiCalls ∧
    (normalize_permit today svc st raw).1.flushes = st.flushes := by
  have hgeo : geoStep today svc st raw = (st, some (lat, lng)) :=
    geocode_cache_hit svc st (optStr (preGeocode today raw).address)
      (optStr (preGeocode today raw).city) (optStr (preGeocode today raw).zipcode)
      lat lng hen hcache
  rw [normalize_permit_eq, if_pos (by rw [hen, htr]; rfl), hgeo]
  exact ⟨rfl, rfl, rfl, rfl⟩

def latW8 : ℚ := ⟨2577, 100, by norm_num, by unfold Nat.Coprime; norm_num⟩

def lngW8 : ℚ := ⟨-8019, 100, by norm_num, by unfold Nat.Coprime; norm_num⟩

def rawW8 : RawPermit :=
  [("source_county", PVal.vs "hillsborough"), ("Address", PVal.vs "123 Main St"),
   ("City", PVal.vs "Miami"), ("Zip", PVal.vs "33101")]

def stW8 : GState :=
  { enableGeocoding := true, hasApiKey := true,
    cache := [("123 MAIN ST, Miami, FL 33101", some (latW8, lngW8))] }

theorem C8_cached_pair_short_circuits_witness :
    (normalize_permit "01/02/2026" svc0 stW8 rawW8).1 = stW8 ∧
    (normalize_permit "01/02/2026" svc0 stW8 rawW8).2.coordinates =
      some (some (latW8, lngW8)) := by
  have h := C8_cached_pair_short_circuits "01/02/2026" svc0 stW8 rawW8 latW8 lngW8
    (by decide) (by decide) (by decide)
  exact ⟨h.1, h.2.1⟩

def demoP (s : String) : NormalizedPermit :=
  { permit_id := .vs s, source_county := .vs "c", permit_type := .vs "t",
    description := .vs "", address := .vs "", city := .vs "", zipcode := .vs "" }

/-- A step that fails (yields no record) exactly on the raw permit tagged "5". -/
def demoStep : GState → RawPermit → GState × Option NormalizedPermit :=
  fun st r =>
    (st, match alGet r "idx" with
      | some (PVal.vs s) => if s = "5" then none else some (demoP s)
      | _ => none)

def demoRaws : List RawPermit :=
  [[("idx", PVal.vs "1")], [("idx", PVal.vs "2")], [("idx", PVal.vs "3")],
   [("idx", PVal.vs "4")], [("idx", PVal.vs "5")], [("idx", PVal.vs "6")],
   [("idx", PVal.vs "7")], [("idx", PVal.vs "8")], [("idx", PVal.vs "9")],
   [("idx", PVal.vs "10")]]

/-- **C7.** The batch loop keeps exactly the per-record outcomes that
succeeded, in input order, with no placeholder for a failed record: its
output is the `filterMap` of the individual outcomes. In particular, on a
10-record batch whose fifth record fails, it returns the other 9 records in
order. -/
theorem C7_batch_skips_failed_records :
    (∀ (step : GState → RawPermit → GState × Option NormalizedPermit) (st : GState)
      (raws : List RawPermit),
      (process_permits step st raws).2 = (runResults step st raws).filterMap id) ∧
    demoRaws.length = 10 ∧
    (runResults demoStep st0 demoRaws).get? 4 = some none ∧
    (process_permits demoStep st0 demoRaws).2 =
      [demoP "1", demoP "2", demoP "3", demoP "4", demoP "6", demoP "7", demoP "8",
       demoP "9", demoP "10"] := by
  refine ⟨?_, by decide, by decide, by decide⟩
  intro step st raws
  induction raws generalizing st with
  | nil => rfl
  | cons r rest ih =>
    cases h : (step st r).2 with
    | none => simp [process_permits, runResults, h, ih]
    | some p => simp [process_permits, runResults, h, ih]

/-- Flush/store bookkeeping invariant: flushes grow exactly as stores do. -/
def FlushInv (st st' : GState) : Prop :=
  st'.flushes + st.stores = st.flushes + st'.stores

theorem geocode_flush_inv (svc : String → GeoResult) (st : GState) (a c z : String) :
    FlushInv st (geocode_address svc st a c z).1 := by
  unfold FlushInv geocode_address
  dsimp only
  split
  · dsimp only
  · split
    · dsimp only
    · split
      · dsimp only
      · split <;> simp [save_geocoding_cache] <;> omega

theorem normalize_flush_inv (today : String) (svc : String → GeoResult) (st : GState)
    (raw : RawPermit) : FlushInv st (normalize_permit today svc st raw).1 := by
  rw [normalize_permit_eq]
  split
  · exact geocode_flush_inv svc st _ _ _
  · unfold FlushInv
    dsimp only

theorem process_flush_inv (step : GState → RawPermit → GState × Option NormalizedPermit)
    (hstep : ∀ st r, FlushInv st (step st r).1) (raws : List RawPermit) (st : GState) :
    FlushInv st (process_permits step st raws).1 := by
  induction raws generalizing st with
  | nil =>
    unfold FlushInv
    rfl
  | cons r rest ih =>
    have h1 := hstep st r
    have h2 := ih (step st r).1
    unfold FlushInv at h1 h2 ⊢
    cases h : (step st r).2 <;> simp [process_permits, h] <;> omega

def svcF2 : String → GeoResult := fun _ => GeoResult.found 25 (-80)

def rawC2 : RawPermit :=
  [("source_county", PVal.vs "miami-dade"), ("ADDRESS", PVal.vs "123 Main Street")]

/-- **C2**, counterexample. A single-permit batch whose address geocodes
successfully writes the cache file twice (once after storing the new result,
once at the end of the batch), so the cache is not flushed exactly once per
batch. -/
theorem C2_flush_once_counterexample :
    (normalize_and_geocode_permits "01/02/2026" svcF2 true true [] [rawC2]).1.flushes = 2 ∧
    ¬ (normalize_and_geocode_permits "01/02/2026" svcF2 true true [] [rawC2]).1.flushes = 1 :=
  ⟨by decide, by decide⟩

/-- **C2**, amended. With geocoding enabled, the batch writes the cache file
once at the end of the batch plus once per newly stored geocoding result:
final flushes = final stores + 1. -/
theorem C2_flushes_eq_stores_succ (today : String) (svc : String → GeoResult)
    (hasKey : Bool) (cache0 : List (String × Option (ℚ × ℚ))) (raws : List RawPermit) :
    (normalize_and_geocode_permits today svc true hasKey cache0 raws).1.flushes =
      (normalize_and_geocode_permits today svc true hasKey cache0 raws).1.stores + 1 := by
  unfold normalize_and_geocode_permits
  dsimp only
  rw [if_pos rfl]
  have h := process_flush_inv (normalizeStep today svc)
    (fun st r => normalize_flush_inv today svc st r) raws
    { enableGeocoding := true, hasApiKey := hasKey, cache := cache0 }
  unfold FlushInv at h
  simp only [save_geocoding_cache]
  dsimp only at h ⊢
  omega

def stC3 : GState :=
  { enableGeocoding := true, hasApiKey := true, cache := [("123 Main St", none)] }

def svcE3 : String → GeoResult := fun _ => GeoResult.empty

/-- **C3.** The code's stated negative caching does not work: with a cached
`null` entry for the exact queried address and an API key available,
`geocode_address` still performs an external call (`apiCalls` grows), and
when the call errors nothing is cached (cache and flush count unchanged,
`None` returned), so failures are retried on every later call as well. -/
theorem C3_negative_cache_ineffective :
    (geocode_address svcE3 stC3 "123 Main St" "" "").1.apiCalls = 1 ∧
    (geocode_address svc0 stC3 "123 Main St" "" "").1.apiCalls = 1 ∧
    (geocode_address svc0 stC3 "123 Main St" "" "").1.cache = stC3.cache ∧
    (geocode_address svc0 stC3 "123 Main St" "" "").1.flushes = 0 ∧
    (geocode_address svc0 stC3 "123 Main St" "" "").2 = none :=
  ⟨by decide, by decide, by decide, by decide, by decide⟩
